import Mathlib

/-
  Verification of the OPM simulator core against its specification.

  Shallow embedding conventions:
  * `double` is modelled as `ℚ` (all operations used by the verified code are
    field operations); IEEE special values are modelled explicitly where a
    claim depends on them (see `FVal` below).
  * `DenseAd::Evaluation` (value plus partial derivatives) is modelled by
    `AdEval` with a total derivative function.
  * `std::vector` is modelled by `List`, reads by `getD` (theorems carry the
    in-bounds hypotheses the C++ `.at` calls guarantee by construction).
  * Code that throws is modelled in `Except Unit`.
-/

/-- Automatic-differentiation scalar: value plus derivatives, modelling
`DenseAd::Evaluation<double, numEq>`. -/
structure AdEval where
  val : ℚ
  der : ℕ → ℚ

/-- Constant promotion of a plain scalar (all derivatives zero). -/
def AdEval.ofQ (c : ℚ) : AdEval := ⟨c, fun _ => 0⟩

def AdEval.add (x y : AdEval) : AdEval :=
  ⟨x.val + y.val, fun k => x.der k + y.der k⟩

def AdEval.sub (x y : AdEval) : AdEval :=
  ⟨x.val - y.val, fun k => x.der k - y.der k⟩

/-- Subtract a plain scalar from an AD scalar (the scalar carries no
derivatives). -/
def AdEval.subQ (x : AdEval) (c : ℚ) : AdEval :=
  ⟨x.val - c, fun k => x.der k⟩

/-- Multiply an AD scalar by a plain scalar on the right. -/
def AdEval.mulQ (x : AdEval) (c : ℚ) : AdEval :=
  ⟨x.val * c, fun k => x.der k * c⟩

/-- Multiply an AD scalar by a plain scalar on the left. -/
def AdEval.qMul (c : ℚ) (x : AdEval) : AdEval :=
  ⟨c * x.val, fun k => c * x.der k⟩

/-- Subtract an AD scalar from a plain scalar. -/
def AdEval.qSub (c : ℚ) (x : AdEval) : AdEval :=
  ⟨c - x.val, fun k => - x.der k⟩

/-- Sum of a list of AD scalars. -/
def adSum (l : List AdEval) : AdEval := l.foldr AdEval.add (AdEval.ofQ 0)

/-- `SimulatorTimerInterface`: the two queries used by the aquifer model. -/
structure SimulatorTimer where
  currentStepLength : ℚ
  simulationTimeElapsed : ℚ

/-- State of `AquiferCarterTracy`: the member variables read or written by
the functions under verification (constructor parameters and the mutable
per-connection vectors). -/
structure AquiferCT where
  phi_aq : ℚ
  C_t : ℚ
  r_o : ℚ
  k_a : ℚ
  c1 : ℚ
  h : ℚ
  pa0 : ℚ
  theta : ℚ
  c2 : ℚ
  d0 : ℚ
  mu_w : ℚ
  gravity : ℚ
  cell_depth : List ℚ
  pressure_previous : List AdEval
  pressure_current : List AdEval
  Qai : List AdEval
  rhow : List AdEval
  alphai : List ℚ
  coeff : List ℚ
  W_flux : AdEval

/-- `AquiferCarterTracy::time_constant`:
`Tc = mu_w*phi_aq*C_t*r_o*r_o/(k_a*c1)`. -/
def time_constant (s : AquiferCT) : ℚ :=
  s.mu_w * s.phi_aq * s.C_t * s.r_o * s.r_o / (s.k_a * s.c1)

/-- `AquiferCarterTracy::aquifer_influx_constant`:
`beta = c2*h*theta*phi_aq*C_t*r_o*r_o`. -/
def aquifer_influx_constant (s : AquiferCT) : ℚ :=
  s.c2 * s.h * s.theta * s.phi_aq * s.C_t * s.r_o * s.r_o

/-- `AquiferCarterTracy::area_fraction`: `alphai_.at(i)`. -/
def area_fraction (s : AquiferCT) (i : ℕ) : ℚ := s.alphai.getD i 0

/-- `AquiferCarterTracy::dpai`:
`pa0_ + rhow_.at(idx).value()*gravity_*(cell_depth_.at(idx) - d0_)
 - pressure_previous_.at(idx).value()`. -/
def dpai (s : AquiferCT) (idx : ℕ) : ℚ :=
  s.pa0 + (s.rhow.getD idx (AdEval.ofQ 0)).val * s.gravity *
      (s.cell_depth.getD idx 0 - s.d0) -
    (s.pressure_previous.getD idx (AdEval.ofQ 0)).val

/-- `AquiferCarterTracy::calculate_a_b_constants` (Eqs 5.8, 5.9): returns
the pair `(a, b)`. -/
def calculate_a_b_constants (s : AquiferCT) (idx : ℕ)
    (timer : SimulatorTimer) : ℚ × ℚ :=
  let beta := aquifer_influx_constant s
  let Tc := time_constant s
  let td_plus_dt := (timer.currentStepLength + timer.simulationTimeElapsed) / Tc
  let td := timer.simulationTimeElapsed / Tc
  let PItdprime := s.coeff.getD 1 0
  let PItd := s.coeff.getD 0 0 + s.coeff.getD 1 0 * td_plus_dt
  let a := 1 / Tc * (beta * dpai s idx - s.W_flux.val * PItdprime) /
    (PItd - td * PItdprime)
  let b := beta / (Tc * (PItd - td * PItdprime))
  (a, b)

/-- `AquiferCarterTracy::calculate_inflow_rate` (Eq 5.7):
`Qai_.at(idx) = area_fraction(idx)*(a - b*(pressure_current_.at(idx)
 - pressure_previous_.at(idx).value()))`. -/
def calculate_inflow_rate (s : AquiferCT) (idx : ℕ)
    (timer : SimulatorTimer) : AquiferCT :=
  let ab := calculate_a_b_constants s idx timer
  let q := AdEval.qMul (area_fraction s idx)
    (AdEval.qSub ab.1
      (AdEval.qMul ab.2
        ((s.pressure_current.getD idx (AdEval.ofQ 0)).subQ
          (s.pressure_previous.getD idx (AdEval.ofQ 0)).val)))
  { s with Qai := s.Qai.set idx q }

/-- `AquiferCarterTracy::after_time_step`: for each connection,
`W_flux_ += Qai * timer.currentStepLength()`. -/
def after_time_step (s : AquiferCT) (timer : SimulatorTimer) : AquiferCT :=
  { s with
    W_flux := s.Qai.foldl
      (fun w q => w.add (q.mulQ timer.currentStepLength)) s.W_flux }

theorem adSum_nil : adSum [] = AdEval.ofQ 0 := rfl

theorem foldl_add_eq_add_adSum (l : List AdEval) (w : AdEval) :
    l.foldl AdEval.add w = w.add (adSum l) := by
  induction l generalizing w with
  | nil =>
    simp only [List.foldl_nil, adSum_nil, AdEval.add, AdEval.ofQ]
    cases w with
    | mk v d => simp
  | cons x xs ih =>
    simp only [List.foldl_cons, adSum, List.foldr_cons, ih]
    simp only [AdEval.add]
    refine congrArg₂ AdEval.mk ?_ ?_
    · ring
    · funext k
      ring

/-- C9: `after_time_step` adds exactly `Σ_i Qai_[i] * dt` to the cumulative
flux `W_flux_` and leaves every other member of the aquifer state unchanged
(the record update touches only `W_flux`). -/
theorem after_time_step_spec (s : AquiferCT) (timer : SimulatorTimer) :
    after_time_step s timer =
      { s with
        W_flux := s.W_flux.add
          (adSum (s.Qai.map (fun q => q.mulQ timer.currentStepLength))) } := by
  unfold after_time_step
  congr 1
  rw [show (fun (w q : AdEval) => w.add (q.mulQ timer.currentStepLength))
      = (fun w q => AdEval.add w (q.mulQ timer.currentStepLength)) from rfl]
  rw [← List.foldl_map (fun q : AdEval => q.mulQ timer.currentStepLength)
      AdEval.add]
  exact foldl_add_eq_add_adSum _ _

/-- Claim formula for the Carter-Tracy constant `a` as the specification
writes it: `a = (1/Tc)*(beta*dpai(i) - W.value*PItd')/(PItd - tD*PItd')`
with `PItd = c0 + c1*((t+dt)/Tc)`, `PItd' = c1` and `tD = t/Tc`. -/
def spec_a (s : AquiferCT) (timer : SimulatorTimer) (i : ℕ) : ℚ :=
  let Tc := time_constant s
  let beta := aquifer_influx_constant s
  let PItd := s.coeff.getD 0 0 +
    s.coeff.getD 1 0 *
      ((timer.simulationTimeElapsed + timer.currentStepLength) / Tc)
  let PItdP := s.coeff.getD 1 0
  let tD := timer.simulationTimeElapsed / Tc
  1 / Tc * (beta * dpai s i - s.W_flux.val * PItdP) / (PItd - tD * PItdP)

/-- Claim formula for the Carter-Tracy constant `b` as the specification
writes it: `b = beta/(Tc*(PItd - tD*PItd'))`. -/
def spec_b (s : AquiferCT) (timer : SimulatorTimer) : ℚ :=
  let Tc := time_constant s
  let beta := aquifer_influx_constant s
  let PItd := s.coeff.getD 0 0 +
    s.coeff.getD 1 0 *
      ((timer.simulationTimeElapsed + timer.currentStepLength) / Tc)
  let PItdP := s.coeff.getD 1 0
  let tD := timer.simulationTimeElapsed / Tc
  beta / (Tc * (PItd - tD * PItdP))

theorem getD_set_self (l : List AdEval) (i : ℕ) (a d : AdEval)
    (h : i < l.length) : (l.set i a).getD i d = a := by
  simp [List.getD_eq_getElem?_getD, List.getElem?_set_self, h]

/-- C1: `calculate_inflow_rate` stores at connection `idx` the AD value
`alpha_i * (a - b * (p_curr - p_prev.value))` with `a`, `b` given by the
spec formulas (`spec_a`, `spec_b`); its value part is the claimed formula
and its derivative w.r.t. every primary variable `k` is
`-(alpha_i * b) * d p_curr / d k`, so only the current water pressure
contributes derivatives while `a`, `b` and the previous pressure enter as
plain values. -/
theorem calculate_inflow_rate_spec (s : AquiferCT) (timer : SimulatorTimer)
    (idx : ℕ) (hidx : idx < s.Qai.length) :
    ((calculate_inflow_rate s idx timer).Qai.getD idx (AdEval.ofQ 0)).val =
        area_fraction s idx *
          (spec_a s timer idx -
            spec_b s timer *
              ((s.pressure_current.getD idx (AdEval.ofQ 0)).val -
                (s.pressure_previous.getD idx (AdEval.ofQ 0)).val)) ∧
      ∀ k,
        ((calculate_inflow_rate s idx timer).Qai.getD idx
              (AdEval.ofQ 0)).der k =
          -(area_fraction s idx * spec_b s timer) *
            (s.pressure_current.getD idx (AdEval.ofQ 0)).der k := by
  unfold calculate_inflow_rate
  simp only [getD_set_self _ _ _ _ hidx]
  constructor
  · simp only [AdEval.qMul, AdEval.qSub, AdEval.subQ, AdEval.mulQ,
      calculate_a_b_constants, spec_a, spec_b]
    ring
  · intro k
    simp only [AdEval.qMul, AdEval.qSub, AdEval.subQ, AdEval.mulQ,
      calculate_a_b_constants, spec_b]
    ring

/-- Concrete aquifer state used by the C1 witness. -/
def aqu0 : AquiferCT :=
  { phi_aq := 1, C_t := 1, r_o := 1, k_a := 1, c1 := 1, h := 1, pa0 := 1,
    theta := 1, c2 := 1, d0 := 0, mu_w := 1, gravity := 0,
    cell_depth := [0], pressure_previous := [AdEval.ofQ 1],
    pressure_current := [⟨2, fun _ => 1⟩], Qai := [AdEval.ofQ 0],
    rhow := [AdEval.ofQ 1], alphai := [1], coeff := [0, 1/2],
    W_flux := AdEval.ofQ 0 }

/-- Timer used by the C1 witness: `t = 0`, `dt = 1`. -/
def timer0 : SimulatorTimer := ⟨1, 0⟩

theorem calculate_inflow_rate_spec_witness :
    0 < aqu0.Qai.length ∧
      ((calculate_inflow_rate aqu0 0 timer0).Qai.getD 0 (AdEval.ofQ 0)).val
        = -2 :=
  ⟨by decide, by
    have h := (calculate_inflow_rate_spec aqu0 timer0 0 (by decide)).1
    rw [h]
    norm_num [aqu0, timer0, spec_a, spec_b, area_fraction, dpai,
      time_constant, aquifer_influx_constant, AdEval.ofQ]⟩

/-- Logically-Cartesian face directions (`Opm::FaceDir::DirEnum`). -/
inductive FaceDir
  | XMinus
  | XPlus
  | YMinus
  | YPlus
  | ZMinus
  | ZPlus
  deriving DecidableEq, Repr

/-- The face-tag if-chain of `initialize_connections`: tags 0..5 map to
directions; any other tag leaves the stateful `faceDirection` variable at
its previous value `d`, exactly as the else-less chain in the source. -/
def dirOfTag (d : FaceDir) (tag : ℕ) : FaceDir :=
  if tag = 0 then .XMinus
  else if tag = 1 then .XPlus
  else if tag = 2 then .YMinus
  else if tag = 3 then .YPlus
  else if tag = 4 then .ZMinus
  else if tag = 5 then .ZPlus
  else d

/-- Stateless direction of a valid face tag, for the theorem statements. -/
def tagDir (tag : ℕ) : Option FaceDir :=
  if tag = 0 then some .XMinus
  else if tag = 1 then some .XPlus
  else if tag = 2 then some .YMinus
  else if tag = 3 then some .YPlus
  else if tag = 4 then some .ZMinus
  else if tag = 5 then some .ZPlus
  else none

/-- One grid face seen from a cell: its tag (`UgGridHelpers::faceTag`) and
its area (`UgGridHelpers::faceArea`). -/
structure CellFace where
  tag : ℕ
  area : ℚ
  deriving DecidableEq, Repr

/-- One aquifer connection of `initialize_connections`: the faces of the
connected cell (`cell2Faces[cell_idx_.at(idx)]`) and the requested
`connection.reservoir_face_dir.at(idx)`. -/
structure AquiferConnEntry where
  faces : List CellFace
  dir : FaceDir
  deriving DecidableEq, Repr

/-- Inner face loop of `initialize_connections` for one connection cell:
threads the stateful `faceDirection`, overwrites `faceArea_connected_`
(`a`) at each matching face and adds every matching face's area to
`denom_face_areas` (`denom`). Returns `(faceDirection, a, denom)`. -/
def cellFaceLoop (want : FaceDir) (faces : List CellFace) (d : FaceDir)
    (a denom : ℚ) : FaceDir × ℚ × ℚ :=
  match faces with
  | [] => (d, a, denom)
  | f :: rest =>
    let d' := dirOfTag d f.tag
    if d' = want then cellFaceLoop want rest d' f.area (denom + f.area)
    else cellFaceLoop want rest d' a denom

/-- Outer loop of `initialize_connections` over the connections, threading
`faceDirection` and `denom_face_areas`; each `faceArea_connected_` entry
starts at `0.0`. Returns the `faceArea_connected_` list, the final
direction and the final denominator. -/
def connLoop (entries : List AquiferConnEntry) (d : FaceDir) (denom : ℚ) :
    List ℚ × FaceDir × ℚ :=
  match entries with
  | [] => ([], d, denom)
  | e :: rest =>
    let c := cellFaceLoop e.dir e.faces d 0 denom
    let o := connLoop rest c.1 c.2.2
    (c.2.1 :: o.1, o.2.1, o.2.2)

/-- `AquiferCarterTracy::initialize_connections` (source name
`initialize_connections`, shortened here), restricted to the quantities the
claim is about: returns `(faceArea_connected_, denom_face_areas, alphai_)`
with `alphai_.at(idx) = faceArea_connected_.at(idx)/denom_face_areas`. The
initial value of the uninitialised C++ `faceDirection` variable is taken to
be `XMinus`; theorems only use inputs with valid tags, where it is never
read. -/
def init_connections (entries : List AquiferConnEntry) :
    List ℚ × ℚ × List ℚ :=
  let r := connLoop entries FaceDir.XMinus 0
  (r.1, r.2.2, r.1.map (fun a => a / r.2.2))

/-- Faces of a connection entry whose (valid) tag maps to the requested
direction. -/
def matchedFaces (e : AquiferConnEntry) : List CellFace :=
  e.faces.filter (fun f => tagDir f.tag = some e.dir)

/-- Total area of the matching faces of one connection entry. -/
def sumMatched (e : AquiferConnEntry) : ℚ :=
  (matchedFaces e).foldr (fun f acc => f.area + acc) 0

theorem dirOfTag_of_valid (d : FaceDir) (tag : ℕ) (w : FaceDir)
    (h : tag < 6) : (dirOfTag d tag = w) ↔ (tagDir tag = some w) := by
  interval_cases tag <;> simp [dirOfTag, tagDir]

theorem cellFaceLoop_denom (want : FaceDir) (faces : List CellFace)
    (d : FaceDir) (a denom : ℚ)
    (htags : ∀ f ∈ faces, f.tag < 6) :
    (cellFaceLoop want faces d a denom).2.2 =
      denom + (faces.filter (fun f => tagDir f.tag = some want)).foldr
        (fun f acc => f.area + acc) 0 := by
  induction faces generalizing d a denom with
  | nil => simp [cellFaceLoop]
  | cons f rest ih =>
    have hf : f.tag < 6 := htags f (List.mem_cons_self _ _)
    have hrest : ∀ g ∈ rest, g.tag < 6 :=
      fun g hg => htags g (List.mem_cons_of_mem _ hg)
    by_cases hm : tagDir f.tag = some want
    · have hd : dirOfTag d f.tag = want := by
        rw [dirOfTag_of_valid _ _ _ hf]; exact hm
      have hstep : cellFaceLoop want (f :: rest) d a denom
          = cellFaceLoop want rest (dirOfTag d f.tag) f.area
              (denom + f.area) := by
        simp only [cellFaceLoop]
        rw [if_pos hd]
      rw [hstep, ih _ _ _ hrest]
      simp only [List.filter_cons]
      rw [if_pos (by simp [hm])]
      simp only [List.foldr_cons]
      ring
    · have hd : ¬ dirOfTag d f.tag = want := by
        rw [dirOfTag_of_valid _ _ _ hf]; exact hm
      have hstep : cellFaceLoop want (f :: rest) d a denom
          = cellFaceLoop want rest (dirOfTag d f.tag) a denom := by
        simp only [cellFaceLoop]
        rw [if_neg hd]
      rw [hstep, ih _ _ _ hrest]
      simp only [List.filter_cons]
      rw [if_neg (by simp [hm])]

theorem cellFaceLoop_area_of_nomatch (want : FaceDir)
    (faces : List CellFace) (d : FaceDir) (a denom : ℚ)
    (htags : ∀ f ∈ faces, f.tag < 6)
    (hnone : ∀ f ∈ faces, ¬ tagDir f.tag = some want) :
    (cellFaceLoop want faces d a denom).2.1 = a := by
  induction faces generalizing d a denom with
  | nil => simp [cellFaceLoop]
  | cons f rest ih =>
    have hf : f.tag < 6 := htags f (List.mem_cons_self _ _)
    have hd : ¬ dirOfTag d f.tag = want := by
      rw [dirOfTag_of_valid _ _ _ hf]
      exact hnone f (List.mem_cons_self _ _)
    simp only [cellFaceLoop, if_neg hd]
    exact ih _ _ _ (fun g hg => htags g (List.mem_cons_of_mem _ hg))
      (fun g hg => hnone g (List.mem_cons_of_mem _ hg))

theorem cellFaceLoop_area (want : FaceDir) (faces : List CellFace)
    (d : FaceDir) (denom : ℚ)
    (htags : ∀ f ∈ faces, f.tag < 6)
    (hcount :
      (faces.filter (fun f => tagDir f.tag = some want)).length ≤ 1) :
    (cellFaceLoop want faces d 0 denom).2.1 =
      (faces.filter (fun f => tagDir f.tag = some want)).foldr
        (fun f acc => f.area + acc) 0 := by
  induction faces generalizing d denom with
  | nil => simp [cellFaceLoop]
  | cons f rest ih =>
    have hf : f.tag < 6 := htags f (List.mem_cons_self _ _)
    have hrest : ∀ g ∈ rest, g.tag < 6 :=
      fun g hg => htags g (List.mem_cons_of_mem _ hg)
    by_cases hm : tagDir f.tag = some want
    · have hd : dirOfTag d f.tag = want := by
        rw [dirOfTag_of_valid _ _ _ hf]; exact hm
      have hlen :
          (rest.filter (fun x => decide (tagDir x.tag = some want))).length
            = 0 := by
        have hc := hcount
        simp only [List.filter_cons] at hc
        rw [if_pos (by simp [hm])] at hc
        simp only [List.length_cons] at hc
        omega
      have hrestnil :
          rest.filter (fun x => decide (tagDir x.tag = some want)) = [] :=
        List.length_eq_zero.mp hlen
      have hrest0 : ∀ g ∈ rest, ¬ tagDir g.tag = some want := by
        intro g hg hgm
        have hmem : g ∈ rest.filter
            (fun x => decide (tagDir x.tag = some want)) :=
          List.mem_filter.mpr ⟨hg, by simp [hgm]⟩
        rw [hrestnil] at hmem
        simp at hmem
      have hstep : cellFaceLoop want (f :: rest) d 0 denom
          = cellFaceLoop want rest (dirOfTag d f.tag) f.area
              (denom + f.area) := by
        simp only [cellFaceLoop]
        rw [if_pos hd]
      rw [hstep, cellFaceLoop_area_of_nomatch _ _ _ _ _ hrest hrest0]
      simp only [List.filter_cons]
      rw [if_pos (by simp [hm]), hrestnil]
      simp
    · have hd : ¬ dirOfTag d f.tag = want := by
        rw [dirOfTag_of_valid _ _ _ hf]; exact hm
      have hcount' :
          (rest.filter (fun x => decide (tagDir x.tag = some want))).length
            ≤ 1 := by
        have hc := hcount
        simp only [List.filter_cons] at hc
        rw [if_neg (by simp [hm])] at hc
        exact hc
      have hstep : cellFaceLoop want (f :: rest) d 0 denom
          = cellFaceLoop want rest (dirOfTag d f.tag) 0 denom := by
        simp only [cellFaceLoop]
        rw [if_neg hd]
      rw [hstep, ih _ _ hrest hcount']
      simp only [List.filter_cons]
      rw [if_neg (by simp [hm])]

theorem connLoop_spec (entries : List AquiferConnEntry) (d : FaceDir)
    (denom : ℚ)
    (htags : ∀ e ∈ entries, ∀ f ∈ e.faces, f.tag < 6)
    (hcount : ∀ e ∈ entries, (matchedFaces e).length ≤ 1) :
    (connLoop entries d denom).1 = entries.map sumMatched ∧
      (connLoop entries d denom).2.2 =
        denom + (entries.map sumMatched).sum := by
  induction entries generalizing d denom with
  | nil => simp [connLoop]
  | cons e rest ih =>
    have he_tags : ∀ f ∈ e.faces, f.tag < 6 :=
      htags e (List.mem_cons_self _ _)
    have he_count : (matchedFaces e).length ≤ 1 :=
      hcount e (List.mem_cons_self _ _)
    have hrest_tags : ∀ x ∈ rest, ∀ f ∈ x.faces, f.tag < 6 :=
      fun x hx => htags x (List.mem_cons_of_mem _ hx)
    have hrest_count : ∀ x ∈ rest, (matchedFaces x).length ≤ 1 :=
      fun x hx => hcount x (List.mem_cons_of_mem _ hx)
    have harea :
        (cellFaceLoop e.dir e.faces d 0 denom).2.1 = sumMatched e := by
      rw [cellFaceLoop_area e.dir e.faces d denom he_tags]
      · rfl
      · exact he_count
    have hdenom :
        (cellFaceLoop e.dir e.faces d 0 denom).2.2 =
          denom + sumMatched e := by
      rw [cellFaceLoop_denom e.dir e.faces d 0 denom he_tags]
      rfl
    have ihr := ih (cellFaceLoop e.dir e.faces d 0 denom).1
      (cellFaceLoop e.dir e.faces d 0 denom).2.2 hrest_tags hrest_count
    constructor
    · simp only [connLoop, List.map_cons]
      rw [harea, ihr.1]
    · simp only [connLoop, List.map_cons, List.sum_cons]
      rw [ihr.2, hdenom]
      ring

theorem sum_map_div (l : List ℚ) (S : ℚ) :
    (l.map (fun a => a / S)).sum = l.sum / S := by
  induction l with
  | nil => simp
  | cons x xs ih => simp [ih, add_div]

/-- C4 (amended): after `initialize_connections`, provided every connection
cell has at most one face matching its requested direction and the total
matched area is positive, the denominator equals the sum of the
`faceArea_connected_` entries, each `alphai_[i]` is
`faceArea_connected_[i]` divided by that sum, and `Σ_i alphai_[i] = 1`. -/
theorem init_connections_alphai_sum (entries : List AquiferConnEntry)
    (htags : ∀ e ∈ entries, ∀ f ∈ e.faces, f.tag < 6)
    (hcount : ∀ e ∈ entries, (matchedFaces e).length ≤ 1)
    (hpos : 0 < (init_connections entries).2.1) :
    (init_connections entries).2.1 = (init_connections entries).1.sum ∧
      (init_connections entries).2.2 =
        (init_connections entries).1.map
          (fun a => a / (init_connections entries).1.sum) ∧
      (init_connections entries).2.2.sum = 1 := by
  have hc := connLoop_spec entries FaceDir.XMinus 0 htags hcount
  have hdenom : (init_connections entries).2.1 =
      (init_connections entries).1.sum := by
    show (connLoop entries FaceDir.XMinus 0).2.2 =
      (connLoop entries FaceDir.XMinus 0).1.sum
    rw [hc.1, hc.2]
    ring
  refine ⟨hdenom, ?_, ?_⟩
  · show (connLoop entries FaceDir.XMinus 0).1.map
        (fun a => a / (connLoop entries FaceDir.XMinus 0).2.2) =
      (connLoop entries FaceDir.XMinus 0).1.map
        (fun a => a / (init_connections entries).1.sum)
    rw [show (connLoop entries FaceDir.XMinus 0).2.2 =
        (init_connections entries).1.sum from hdenom]
  · have hS : (init_connections entries).1.sum ≠ 0 := by
      rw [← hdenom]
      exact ne_of_gt hpos
    show ((connLoop entries FaceDir.XMinus 0).1.map
        (fun a => a / (connLoop entries FaceDir.XMinus 0).2.2)).sum = 1
    rw [show (connLoop entries FaceDir.XMinus 0).2.2 =
        (init_connections entries).1.sum from hdenom, sum_map_div]
    exact div_self hS

/-- Aquifer connection input for the C4 counterexample: the second cell has
two faces matching the requested direction. -/
def cexEntries : List AquiferConnEntry :=
  [⟨[⟨0, 1⟩], FaceDir.XMinus⟩, ⟨[⟨0, 1⟩, ⟨0, 2⟩], FaceDir.XMinus⟩]

/-- C4 counterexample: every connection of `cexEntries` has at least one
matching boundary face, yet after `initialize_connections` the area
fractions sum to `3/4`, not `1` (the denominator counts both matching faces
of the second cell while `faceArea_connected_` keeps only the last). -/
theorem init_connections_claim_cex :
    (cexEntries.all (fun e => 0 < (matchedFaces e).length)) = true ∧
      (init_connections cexEntries).2.2.sum = 3 / 4 ∧
      ((3 : ℚ) / 4) ≠ 1 := by
  refine ⟨by decide, ?_, by norm_num⟩
  norm_num [init_connections, connLoop, cellFaceLoop, dirOfTag, cexEntries]

/-- Aquifer connection input for the C4 witness. -/
def witEntries : List AquiferConnEntry :=
  [⟨[⟨0, 2⟩], FaceDir.XMinus⟩, ⟨[⟨1, 3⟩], FaceDir.XPlus⟩]

theorem init_connections_alphai_sum_witness :
    ((∀ e ∈ witEntries, ∀ f ∈ e.faces, f.tag < 6) ∧
        (∀ e ∈ witEntries, (matchedFaces e).length ≤ 1) ∧
        0 < (init_connections witEntries).2.1) ∧
      (init_connections witEntries).2.2.sum = 1 :=
  ⟨⟨by decide, by decide,
      by norm_num [init_connections, connLoop, cellFaceLoop, dirOfTag,
        witEntries]⟩,
    (init_connections_alphai_sum witEntries (by decide) (by decide)
      (by norm_num [init_connections, connLoop, cellFaceLoop, dirOfTag,
        witEntries])).2.2⟩

/-- The matrix built by `polynomial_fit`: `A(i, j) = X[i]^j` with bias,
`X[i]^(j+1)` without. -/
def vandermonde (X : List ℚ) (bias : Bool) (i j : ℕ) : ℚ :=
  if bias then (X.getD i 0) ^ j else (X.getD i 0) ^ (j + 1)

/-- `AquiferCarterTracy::polynomial_fit`, parametric in the external Eigen
QR solver (`A.householderQr().solve(y)`), which is outside this repository
and is treated as a narrow contract. The two `assert`s of the source
(`X.size() == y.size()` and `X.size() >= colNum`) are modelled as the
failure branch; on success the first `colNum` entries of the solver result
are copied into `coeff`. -/
def polynomial_fit (solver : (ℕ → ℕ → ℚ) → List ℚ → List ℚ)
    (X y : List ℚ) (order : ℕ) (bias : Bool) : Except Unit (List ℚ) :=
  let colNum := if bias then order + 1 else order
  if X.length = y.length ∧ colNum ≤ X.length then
    Except.ok ((List.range colNum).map
      (fun i => (solver (vandermonde X bias) y).getD i 0))
  else Except.error ()

/-- Sum of `f` over `0, ..., n-1`. -/
def rangeSum (n : ℕ) (f : ℕ → ℚ) : ℚ := ((List.range n).map f).sum

/-- The least-squares (normal-equation) characterisation for the system
with matrix `A` (`rows × cols`) and right-hand side `y`:
`Aᵀ (A x − y) = 0`. -/
def solvesNormalEq (A : ℕ → ℕ → ℚ) (y : List ℚ) (rows cols : ℕ)
    (x : ℕ → ℚ) : Prop :=
  ∀ k < cols,
    rangeSum rows
      (fun i => A i k * (rangeSum cols (fun j => A i j * x j) - y.getD i 0))
      = 0

theorem getD_range_map (n j : ℕ) (f : ℕ → ℚ) (hj : j < n) :
    ((List.range n).map f).getD j 0 = f j := by
  rw [List.getD_eq_getElem?_getD]
  simp [List.getElem?_map, List.getElem?_range, hj]

theorem rangeSum_congr (n : ℕ) (f g : ℕ → ℚ)
    (h : ∀ i < n, f i = g i) :
    rangeSum n f = rangeSum n g := by
  unfold rangeSum
  congr 1
  apply List.map_congr_left
  intro i hi
  exact h i (List.mem_range.mp hi)

theorem solvesNormalEq_congr (A : ℕ → ℕ → ℚ) (y : List ℚ)
    (rows cols : ℕ) (x x' : ℕ → ℚ) (h : ∀ j < cols, x j = x' j)
    (hs : solvesNormalEq A y rows cols x) :
    solvesNormalEq A y rows cols x' := by
  intro k hk
  have heq : rangeSum rows
        (fun i => A i k *
          (rangeSum cols (fun j => A i j * x' j) - y.getD i 0)) =
      rangeSum rows
        (fun i => A i k *
          (rangeSum cols (fun j => A i j * x j) - y.getD i 0)) := by
    apply rangeSum_congr
    intro i hi
    have h2 : rangeSum cols (fun j => A i j * x' j) =
        rangeSum cols (fun j => A i j * x j) :=
      rangeSum_congr _ _ _ (fun j hj => by rw [h j hj])
    rw [h2]
  rw [heq]
  exact hs k hk

/-- C8: with bias enabled, `polynomial_fit` on `N` sample pairs fails when
`N < order + 1` (the insufficient-samples check), and otherwise returns
exactly `order + 1` coefficients which solve the least-squares Vandermonde
system whenever the external QR solver returns a least-squares solution of
that system. -/
theorem polynomial_fit_spec (solver : (ℕ → ℕ → ℚ) → List ℚ → List ℚ)
    (X y : List ℚ) (order : ℕ) (hlen : X.length = y.length) :
    (X.length < order + 1 →
        polynomial_fit solver X y order true = Except.error ()) ∧
      (order + 1 ≤ X.length →
        polynomial_fit solver X y order true =
            Except.ok ((List.range (order + 1)).map
              (fun i => (solver (vandermonde X true) y).getD i 0)) ∧
          ((List.range (order + 1)).map
              (fun i => (solver (vandermonde X true) y).getD i 0)).length
            = order + 1 ∧
          (solvesNormalEq (vandermonde X true) y X.length (order + 1)
              (fun j => (solver (vandermonde X true) y).getD j 0) →
            solvesNormalEq (vandermonde X true) y X.length (order + 1)
              (fun j => (((List.range (order + 1)).map
                (fun i => (solver (vandermonde X true) y).getD i 0)).getD
                  j 0)))) := by
  constructor
  · intro hlt
    simp only [polynomial_fit, if_true]
    rw [if_neg]
    omega
  · intro hge
    refine ⟨?_, by simp, ?_⟩
    · simp only [polynomial_fit, if_true]
      rw [if_pos]
      omega
    · intro hsol
      exact solvesNormalEq_congr _ _ _ _ _ _
        (fun j hj => (getD_range_map _ _ _ hj).symm) hsol

/-- Concrete stand-in for the external QR solver used by the C8 witness:
on the witness data it returns the exact least-squares solution. -/
def solver0 : (ℕ → ℕ → ℚ) → List ℚ → List ℚ := fun _ _ => [0, 1]

theorem polynomial_fit_spec_witness :
    polynomial_fit solver0 [0, 1] [0, 1] 5 true = Except.error () ∧
      polynomial_fit solver0 [0, 1] [0, 1] 1 true = Except.ok [0, 1] := by
  constructor
  · exact (polynomial_fit_spec solver0 [0, 1] [0, 1] 5 rfl).1 (by decide)
  · have h := ((polynomial_fit_spec solver0 [0, 1] [0, 1] 1 rfl).2
      (by decide)).1
    rw [h]
    rfl

/-- A `double` residual value in the categories relevant to
`getWellConvergence`: NaN, positive/negative infinity, or a finite
rational. -/
inductive FVal
  | nan
  | inf
  | ninf
  | fin (q : ℚ)
  deriving DecidableEq, Repr

/-- IEEE `>` on modelled doubles: any comparison with NaN is false. -/
def fgt (a b : FVal) : Bool :=
  match a, b with
  | .nan, _ => false
  | _, .nan => false
  | .inf, .inf => false
  | .inf, _ => true
  | .ninf, _ => false
  | .fin _, .inf => false
  | .fin _, .ninf => true
  | .fin x, .fin y => x > y

/-- `std::isnan`. -/
def fisnan (a : FVal) : Bool := a = FVal.nan

/-- `std::isinf`. -/
def fisinf (a : FVal) : Bool := a = FVal.inf || a = FVal.ninf

/-- Multiplication of a finite scalar (`B_avg[eq_idx]`) with a modelled
double, following IEEE semantics (`0 * inf = NaN`). -/
def fmulQ (b : ℚ) (r : FVal) : FVal :=
  match r with
  | .nan => .nan
  | .inf => if b > 0 then .inf else if b = 0 then .nan else .ninf
  | .ninf => if b > 0 then .ninf else if b = 0 then .nan else .inf
  | .fin q => .fin (b * q)

/-- The maximum-residual loop of `getWellConvergence`: starting from `0.0`,
replace the maximum whenever the candidate compares greater (IEEE `>`,
so NaN candidates never replace it). -/
def maxResidual (rs : List FVal) : FVal :=
  rs.foldl (fun m r => if fgt r m then r else m) (FVal.fin 0)

/-- Per-equation maximum for a mass (component) equation `eq_idx <
numComponents`: residuals scaled by `B_avg[eq_idx]`, maximum over all
segments. -/
def maxMassResidual (b : ℚ) (rs : List FVal) : FVal :=
  maxResidual (rs.map (fmulQ b))

/-- Per-equation maximum for the pressure equation: unscaled residuals,
taken over the non-top segments only (`seg > 0`). -/
def maxPressureResidual (rs : List FVal) : FVal :=
  maxResidual (rs.drop 1)

/-- `ConvergenceReport` severities used by `getWellConvergence`. -/
inductive Severity
  | NotANumber
  | TooLarge
  | Normal
  deriving DecidableEq, Repr

/-- Severity classification of a mass-equation maximum residual
(`getWellConvergence`, mass branch): NaN, then `> max_residual_allowed`,
then the strict tolerance unless relaxed, then the relaxed tolerance. -/
def classifyMass (max_residual_allowed tolerance_wells
    relaxed_inner_tolerance_flow : ℚ) (relax_tolerance : Bool)
    (r : FVal) : Option Severity :=
  if fisnan r then some .NotANumber
  else if fgt r (.fin max_residual_allowed) then some .TooLarge
  else if !relax_tolerance && fgt r (.fin tolerance_wells) then some .Normal
  else if fgt r (.fin relaxed_inner_tolerance_flow) then some .Normal
  else none

/-- Severity classification of the pressure-equation maximum residual
(`getWellConvergence`, pressure branch): NaN, then `std::isinf`, then the
strict tolerance unless relaxed, then the relaxed tolerance. -/
def classifyPressure (tolerance_pressure_ms_wells
    relaxed_inner_tolerance_pressure : ℚ) (relax_tolerance : Bool)
    (r : FVal) : Option Severity :=
  if fisnan r then some .NotANumber
  else if fisinf r then some .TooLarge
  else if !relax_tolerance && fgt r (.fin tolerance_pressure_ms_wells) then
    some .Normal
  else if fgt r (.fin relaxed_inner_tolerance_pressure) then some .Normal
  else none

/-- C5 counterexample: for the pressure equation, a finite maximum residual
of `1000`, greater than a `max_residual_allowed` of `100`, is classified
`Normal`, not `TooLarge` (the pressure branch tests `std::isinf`, never
`max_residual_allowed`). The residual list places `1000` on a non-top
segment. -/
theorem getWellConvergence_pressure_cex :
    maxPressureResidual [FVal.fin 0, FVal.fin 1000] = FVal.fin 1000 ∧
      ((1000 : ℚ) > 100) ∧
      classifyPressure 1 10 false
          (maxPressureResidual [FVal.fin 0, FVal.fin 1000]) =
        some Severity.Normal ∧
      some Severity.Normal ≠ some Severity.TooLarge := by
  have h : maxPressureResidual [FVal.fin 0, FVal.fin 1000] =
      FVal.fin 1000 := by
    show maxResidual [FVal.fin 1000] = FVal.fin 1000
    simp [maxResidual, List.foldl, fgt]
  refine ⟨h, by norm_num, ?_, by simp⟩
  rw [h]
  simp [classifyPressure, fisnan, fisinf, fgt]

/-- C5 (amended): the per-equation maximum residual (scaled by `B_avg` for
mass equations; unscaled over non-top segments for the pressure equation)
receives at most one severity, characterised as follows. Mass equations:
`NotANumber` exactly on NaN; `TooLarge` exactly when the maximum compares
greater than `max_residual_allowed`; `Normal` exactly when neither holds
and the maximum exceeds the strict tolerance (only consulted when relaxed
tolerances are not in force) or the relaxed tolerance. Pressure equation:
`TooLarge` exactly on an infinite residual; `max_residual_allowed` is
never consulted; the tolerance cascade is as for mass with the pressure
tolerances. -/
theorem getWellConvergence_severity (maxr tolw relaxw tolp relaxp b : ℚ)
    (relax : Bool) (rs ps : List FVal) :
    (classifyMass maxr tolw relaxw relax (maxMassResidual b rs) =
        some Severity.NotANumber ↔
      fisnan (maxMassResidual b rs) = true) ∧
    (classifyMass maxr tolw relaxw relax (maxMassResidual b rs) =
        some Severity.TooLarge ↔
      fisnan (maxMassResidual b rs) = false ∧
        fgt (maxMassResidual b rs) (FVal.fin maxr) = true) ∧
    (classifyMass maxr tolw relaxw relax (maxMassResidual b rs) =
        some Severity.Normal ↔
      fisnan (maxMassResidual b rs) = false ∧
        fgt (maxMassResidual b rs) (FVal.fin maxr) = false ∧
        ((relax = false ∧
            fgt (maxMassResidual b rs) (FVal.fin tolw) = true) ∨
          fgt (maxMassResidual b rs) (FVal.fin relaxw) = true)) ∧
    (classifyPressure tolp relaxp relax (maxPressureResidual ps) =
        some Severity.NotANumber ↔
      fisnan (maxPressureResidual ps) = true) ∧
    (classifyPressure tolp relaxp relax (maxPressureResidual ps) =
        some Severity.TooLarge ↔
      fisnan (maxPressureResidual ps) = false ∧
        fisinf (maxPressureResidual ps) = true) ∧
    (classifyPressure tolp relaxp relax (maxPressureResidual ps) =
        some Severity.Normal ↔
      fisnan (maxPressureResidual ps) = false ∧
        fisinf (maxPressureResidual ps) = false ∧
        ((relax = false ∧
            fgt (maxPressureResidual ps) (FVal.fin tolp) = true) ∨
          fgt (maxPressureResidual ps) (FVal.fin relaxp) = true)) := by
  generalize maxMassResidual b rs = r
  generalize maxPressureResidual ps = p
  unfold classifyMass classifyPressure
  split_ifs <;> simp_all

/-- `BlackoilPhases::PhaseIndex` (the three phases used by the group
logic). -/
inductive BOPhase
  | Aqua
  | Liquid
  | Vapour
  deriving DecidableEq, Repr

/-- `PhaseUsage`: number of active phases and the position/use tables. -/
structure PhaseUsage where
  num_phases : ℕ
  phase_used : BOPhase → Bool
  phase_pos : BOPhase → ℕ

/-- `ProductionSpecification::ControlMode`. -/
inductive PCM
  | NONE
  | ORAT
  | WRAT
  | GRAT
  | LRAT
  | CRAT
  | RESV
  | PRBL
  | BHP
  | THP
  | GRUP
  | FLD
  deriving DecidableEq, Repr

/-- `InjectionSpecification::ControlMode`. -/
inductive ICM
  | NONE
  | RATE
  | RESV
  | BHP
  | THP
  | REIN
  | VREP
  | GRUP
  | FLD
  deriving DecidableEq, Repr

/-- `ProductionSpecification::Procedure`. -/
inductive ProdProcedure
  | NONE_P
  | RATE
  | WELL
  deriving DecidableEq, Repr

/-- The members of `ProductionSpecification` the verified functions read. -/
structure ProductionSpecification where
  control_mode : PCM
  procedure : ProdProcedure
  oil_max_rate : ℚ
  water_max_rate : ℚ
  gas_max_rate : ℚ
  liquid_max_rate : ℚ
  reservoir_flow_max_rate : ℚ
  guide_rate : ℚ

/-- The members of `InjectionSpecification` the verified functions read. -/
structure InjectionSpecification where
  control_mode : ICM
  surface_flow_max_rate : ℚ
  reservoir_flow_max_rate : ℚ
  guide_rate : ℚ

/-- `WellControlType` of a control slot in the flat `Wells` struct. -/
inductive WellControlType
  | BHP
  | THP
  | RESERVOIR_RATE
  | SURFACE_RATE
  deriving DecidableEq, Repr

/-- One control slot of a well (`well_controls`): type, target, alq, vfp
and the phase distribution vector. -/
structure WellControl where
  ctype : WellControlType
  target : ℚ
  alq : ℚ
  vfp : ℚ
  distr : List ℚ
  deriving DecidableEq, Repr

/-- `WellType` from the `Wells` struct. -/
inductive WellType
  | PRODUCER
  | INJECTOR
  deriving DecidableEq, Repr

/-- Leaf (`WellNode`) state: index into the flat wells arrays, well type,
control list, current control index and the group-control slot index
(`-1` when absent). -/
structure WellData where
  self_index : ℕ
  wtype : WellType
  ctrls : List WellControl
  current : ℕ
  group_control_index : Int

/-- Data shared by `WellsGroupInterface` nodes: efficiency factor, specs,
phase usage and the individual-control flag. -/
structure NodeSpec where
  efficiency_factor : ℚ
  prodSpec : ProductionSpecification
  injSpec : InjectionSpecification
  phase_usage : PhaseUsage
  individual_control : Bool

/-- The well-group tree: a `WellNode` leaf or a `WellsGroup` with an
ordered list of children. -/
inductive WGNode
  | well : NodeSpec → WellData → WGNode
  | group : NodeSpec → List WGNode → WGNode

/-- Node spec accessor (`prodSpec()`, `injSpec()`, ... live here). -/
def WGNode.spec : WGNode → NodeSpec
  | .well s _ => s
  | .group s _ => s

/-- `WellsGroupInterface::individualControl`. -/
def WGNode.individualControl (n : WGNode) : Bool := n.spec.individual_control

mutual

/-- `productionGuideRate(only_group)`: a leaf returns its production guide
rate unless `only_group` is set and the well is individually controlled; a
group sums its children, counting a child only when it is not individually
controlled if `only_group` is set. -/
def productionGuideRate (only_group : Bool) : WGNode → ℚ
  | .well s _ =>
    if !only_group || !s.individual_control then s.prodSpec.guide_rate else 0
  | .group _ cs => prodGuideRateSum only_group cs

def prodGuideRateSum (only_group : Bool) : List WGNode → ℚ
  | [] => 0
  | c :: rest =>
    (if only_group then
      (if !c.individualControl then productionGuideRate only_group c else 0)
    else productionGuideRate only_group c) + prodGuideRateSum only_group rest

end

mutual

/-- `injectionGuideRate(only_group)`: as for production but a group sums
all children unconditionally. -/
def injectionGuideRate (only_group : Bool) : WGNode → ℚ
  | .well s _ =>
    if !only_group || !s.individual_control then s.injSpec.guide_rate else 0
  | .group _ cs => injGuideRateSum only_group cs

def injGuideRateSum (only_group : Bool) : List WGNode → ℚ
  | [] => 0
  | c :: rest =>
    injectionGuideRate only_group c + injGuideRateSum only_group rest

end

/-- `WellsGroupInterface::rateByMode` for production control modes. -/
def rateByModeProd (pu : PhaseUsage) (res_rates surf_rates : ℕ → ℚ) :
    PCM → Except Unit ℚ
  | .ORAT => .ok (surf_rates (pu.phase_pos .Liquid))
  | .WRAT => .ok (surf_rates (pu.phase_pos .Aqua))
  | .GRAT => .ok (surf_rates (pu.phase_pos .Vapour))
  | .LRAT => .ok (surf_rates (pu.phase_pos .Liquid) +
      surf_rates (pu.phase_pos .Aqua))
  | .RESV => .ok (rangeSum pu.num_phases res_rates)
  | _ => .error ()

/-- `WellsGroupInterface::rateByMode` for injection control modes. -/
def rateByModeInj (pu : PhaseUsage) (res_rates surf_rates : ℕ → ℚ) :
    ICM → Except Unit ℚ
  | .RATE => .ok (rangeSum pu.num_phases surf_rates)
  | .RESV => .ok (rangeSum pu.num_phases res_rates)
  | _ => .error ()

/-- `WellsGroupInterface::getTarget` for production modes (`GRUP` and
unsupported modes throw). -/
def getTargetProd (ps : ProductionSpecification) : PCM → Except Unit ℚ
  | .GRAT => .ok ps.gas_max_rate
  | .WRAT => .ok ps.water_max_rate
  | .ORAT => .ok ps.oil_max_rate
  | .RESV => .ok ps.reservoir_flow_max_rate
  | .LRAT => .ok ps.liquid_max_rate
  | _ => .error ()

/-- `WellsGroupInterface::getTarget` for injection modes. -/
def getTargetInj (i : InjectionSpecification) : ICM → Except Unit ℚ
  | .RATE => .ok i.surface_flow_max_rate
  | .RESV => .ok i.reservoir_flow_max_rate
  | _ => .error ()

/-- `WellPhasesSummed`: per-phase reservoir/surface injection and
production rates (C++ fixed arrays of three doubles, modelled as
functions; the update operators touch indices `0..2` only). -/
structure WellPhasesSummed where
  res_inj_rates : ℕ → ℚ
  res_prod_rates : ℕ → ℚ
  surf_inj_rates : ℕ → ℚ
  surf_prod_rates : ℕ → ℚ

/-- The zero-initialised `WellPhasesSummed` of its constructor. -/
def WellPhasesSummed.zero : WellPhasesSummed :=
  ⟨fun _ => 0, fun _ => 0, fun _ => 0, fun _ => 0⟩

/-- `WellPhasesSummed::operator+=` acts on the three array slots. -/
def addCap3 (f g : ℕ → ℚ) : ℕ → ℚ :=
  fun i => if i < 3 then f i + g i else f i

/-- `WellPhasesSummed::operator+=`. -/
def WellPhasesSummed.addAssign (a b : WellPhasesSummed) :
    WellPhasesSummed :=
  ⟨addCap3 a.res_inj_rates b.res_inj_rates,
   addCap3 a.res_prod_rates b.res_prod_rates,
   addCap3 a.surf_inj_rates b.surf_inj_rates,
   addCap3 a.surf_prod_rates b.surf_prod_rates⟩

/-- The rate-reporting prologue of `WellNode::conditionsMet`: the phase
rates of this well are written into the caller's freshly zero-initialised
accumulator (injection or production slots according to the well type). -/
def leafSummed (spec : NodeSpec) (w : WellData) (rr sr : ℕ → ℚ) :
    WellPhasesSummed :=
  let np := spec.phase_usage.num_phases
  if w.wtype = .INJECTOR then
    { res_inj_rates := fun p => if p < np then rr (np * w.self_index + p) else 0
      surf_inj_rates := fun p => if p < np then sr (np * w.self_index + p) else 0
      res_prod_rates := fun _ => 0
      surf_prod_rates := fun _ => 0 }
  else
    { res_prod_rates := fun p => if p < np then rr (np * w.self_index + p) else 0
      surf_prod_rates := fun p => if p < np then sr (np * w.self_index + p) else 0
      res_inj_rates := fun _ => 0
      surf_inj_rates := fun _ => 0 }

/-- One control-slot check of `WellNode::conditionsMet` (`THP` throws). -/
def ctrlViolated (spec : NodeSpec) (w : WellData) (bhp rr sr : ℕ → ℚ)
    (c : WellControl) : Except Unit Bool :=
  let np := spec.phase_usage.num_phases
  match c.ctype with
  | .BHP =>
    .ok (if w.wtype = .PRODUCER then decide (c.target > bhp w.self_index)
      else decide (c.target < bhp w.self_index))
  | .THP => .error ()
  | .RESERVOIR_RATE =>
    let my_rate :=
      rangeSum np (fun p => c.distr.getD p 0 * rr (np * w.self_index + p))
    .ok (decide (|my_rate| - |c.target| >
      max |my_rate| |c.target| * (1 / 1000000)))
  | .SURFACE_RATE =>
    let my_rate :=
      rangeSum np (fun p => c.distr.getD p 0 * sr (np * w.self_index + p))
    .ok (decide (|my_rate| > |c.target|))

/-- The control loop of `WellNode::conditionsMet`: slots equal to the
current control or to the group-control slot are skipped; the first
violated slot stops the scan (the `set_current_control` side effect on
that path is not modelled; the claims under verification only concern the
returned flag and accumulator). -/
def checkCtrls (spec : NodeSpec) (w : WellData) (bhp rr sr : ℕ → ℚ) :
    List (ℕ × WellControl) → Except Unit Bool
  | [] => .ok true
  | (i, c) :: rest =>
    if i = w.current ∨ (i : Int) = w.group_control_index then
      checkCtrls spec w bhp rr sr rest
    else
      match ctrlViolated spec w bhp rr sr c with
      | .error e => .error e
      | .ok v =>
        if v then .ok false else checkCtrls spec w bhp rr sr rest

/-- `WellNode::conditionsMet`: reports this well's rates into the
accumulator, then scans the control slots. -/
def wellConditionsMet (spec : NodeSpec) (w : WellData)
    (bhp rr sr : ℕ → ℚ) : Except Unit (Bool × WellPhasesSummed) :=
  match checkCtrls spec w bhp rr sr w.ctrls.enum with
  | .error e => .error e
  | .ok ok => .ok (ok, leafSummed spec w rr sr)

/-- The injection modes checked by `WellsGroup::conditionsMet`. -/
def injectionModesList : List ICM := [.RATE, .RESV]

/-- The production modes checked by `WellsGroup::conditionsMet`. -/
def productionModesList : List PCM := [.ORAT, .WRAT, .GRAT, .LRAT, .RESV]

/-- One injection-mode check of `WellsGroup::conditionsMet`: the active
mode is skipped; a set (nonnegative) target is violated when the
aggregated child rate exceeds it. -/
def injModeViolated (spec : NodeSpec) (s : WellPhasesSummed)
    (mode : ICM) : Bool :=
  if spec.injSpec.control_mode = mode then false
  else
    match getTargetInj spec.injSpec mode,
        rateByModeInj spec.phase_usage s.res_inj_rates s.surf_inj_rates
          mode with
    | .ok target, .ok rate => decide (target ≥ 0) && decide (rate > target)
    | _, _ => false

/-- One production-mode check of `WellsGroup::conditionsMet`: the active
mode is skipped; a set (nonnegative) target is violated when the absolute
aggregated child rate exceeds it. -/
def prodModeViolated (spec : NodeSpec) (s : WellPhasesSummed)
    (mode : PCM) : Bool :=
  if spec.prodSpec.control_mode = mode then false
  else
    match getTargetProd spec.prodSpec mode,
        rateByModeProd spec.phase_usage s.res_prod_rates s.surf_prod_rates
          mode with
    | .ok target, .ok rate => decide (target ≥ 0) && decide (|rate| > target)
    | _, _ => false

mutual

/-- `conditionsMet` (`WellsGroup` and `WellNode` overloads): returns the
met/not-met flag together with what the node writes into its caller's
freshly zero-initialised accumulator (a group adds the aggregated child
totals only on the returning-true path; on any violated path it writes
nothing, i.e. the delta is zero). Control-mutation side effects on the
not-met paths are not modelled; the verified claims only concern the flag
and the accumulator. -/
def conditionsMet (bhp rr sr : ℕ → ℚ) :
    WGNode → Except Unit (Bool × WellPhasesSummed)
  | .well spec w => wellConditionsMet spec w bhp rr sr
  | .group spec cs =>
    match childrenConditionsMet bhp rr sr cs WellPhasesSummed.zero with
    | .error e => .error e
    | .ok none => .ok (false, WellPhasesSummed.zero)
    | .ok (some childSum) =>
      if injectionModesList.any (fun m => injModeViolated spec childSum m)
      then .ok (false, WellPhasesSummed.zero)
      else if productionModesList.any
          (fun m => prodModeViolated spec childSum m) then
        .ok (false, WellPhasesSummed.zero)
      else .ok (true, childSum)

/-- The child loop of `WellsGroup::conditionsMet`: recurse into each child
with a fresh accumulator, stop at the first not-met child (`none`), else
accumulate with `operator+=`. -/
def childrenConditionsMet (bhp rr sr : ℕ → ℚ) :
    List WGNode → WellPhasesSummed → Except Unit (Option WellPhasesSummed)
  | [], acc => .ok (some acc)
  | c :: rest, acc =>
    match conditionsMet bhp rr sr c with
    | .error e => .error e
    | .ok (b, s) =>
      if b then childrenConditionsMet bhp rr sr rest (acc.addAssign s)
      else .ok none

end

mutual

/-- The per-phase totals a subtree reports when every node meets its
conditions: a leaf reports its own rates, a group accumulates its
children (`child_phases_summed += current_child_phases_summed`). -/
def aggregateRates (rr sr : ℕ → ℚ) : WGNode → WellPhasesSummed
  | .well spec w => leafSummed spec w rr sr
  | .group _ cs => aggChildren rr sr cs WellPhasesSummed.zero

def aggChildren (rr sr : ℕ → ℚ) :
    List WGNode → WellPhasesSummed → WellPhasesSummed
  | [], acc => acc
  | c :: rest, acc =>
    aggChildren rr sr rest (acc.addAssign (aggregateRates rr sr c))

end

mutual

/-- All nodes of a well-group tree (the node itself first). -/
def subtreeNodes : WGNode → List WGNode
  | .well s w => [.well s w]
  | .group s cs => .group s cs :: subtreeForest cs

def subtreeForest : List WGNode → List WGNode
  | [] => []
  | c :: rest => subtreeNodes c ++ subtreeForest rest

end

mutual

/-- Structural induction over the nested well-group tree. -/
def wgnodeInd (P : WGNode → Prop) (hw : ∀ s w, P (.well s w))
    (hg : ∀ s cs, (∀ c ∈ cs, P c) → P (.group s cs)) :
    ∀ n, P n
  | .well s w => hw s w
  | .group s cs => hg s cs (wgforestInd P hw hg cs)

def wgforestInd (P : WGNode → Prop) (hw : ∀ s w, P (.well s w))
    (hg : ∀ s cs, (∀ c ∈ cs, P c) → P (.group s cs)) :
    ∀ cs : List WGNode, ∀ c ∈ cs, P c
  | [] => fun c hc => absurd hc (List.not_mem_nil c)
  | x :: rest => fun c hc => by
    cases List.mem_cons.mp hc with
    | inl hcx => exact hcx ▸ wgnodeInd P hw hg x
    | inr hcr => exact wgforestInd P hw hg rest c hcr

end

theorem subtreeForest_mem (m : WGNode) :
    ∀ cs : List WGNode,
      m ∈ subtreeForest cs ↔ ∃ c ∈ cs, m ∈ subtreeNodes c := by
  intro cs
  induction cs with
  | nil => simp [subtreeForest]
  | cons c rest ih =>
    simp [subtreeForest, List.mem_append, ih]

theorem childrenConditionsMet_agg (bhp rr sr : ℕ → ℚ) :
    ∀ (cs : List WGNode) (acc t : WellPhasesSummed),
      (∀ c ∈ cs, ∀ sc,
        conditionsMet bhp rr sr c = .ok (true, sc) →
          sc = aggregateRates rr sr c) →
      childrenConditionsMet bhp rr sr cs acc = .ok (some t) →
      t = aggChildren rr sr cs acc := by
  intro cs
  induction cs with
  | nil =>
    intro acc t _ h
    simp only [childrenConditionsMet] at h
    cases h
    rfl
  | cons c rest ih =>
    intro acc t hagg h
    simp only [childrenConditionsMet] at h
    cases hcm : conditionsMet bhp rr sr c with
    | error e => rw [hcm] at h; exact absurd h (by simp)
    | ok bs =>
      rw [hcm] at h
      obtain ⟨b, s⟩ := bs
      cases b with
      | false => simp at h
      | true =>
        simp only [if_pos rfl] at h
        have hs : s = aggregateRates rr sr c :=
          hagg c (List.mem_cons_self _ _) s hcm
        have := ih (acc.addAssign s) t
          (fun x hx => hagg x (List.mem_cons_of_mem _ hx)) h
        rw [this, hs]
        rfl

theorem childrenConditionsMet_true (bhp rr sr : ℕ → ℚ) :
    ∀ (cs : List WGNode) (acc t : WellPhasesSummed),
      childrenConditionsMet bhp rr sr cs acc = .ok (some t) →
      ∀ c ∈ cs, ∃ sc, conditionsMet bhp rr sr c = .ok (true, sc) := by
  intro cs
  induction cs with
  | nil => intro acc t _ c hc; exact absurd hc (List.not_mem_nil c)
  | cons c rest ih =>
    intro acc t h x hx
    simp only [childrenConditionsMet] at h
    cases hcm : conditionsMet bhp rr sr c with
    | error e => rw [hcm] at h; exact absurd h (by simp)
    | ok bs =>
      rw [hcm] at h
      obtain ⟨b, s⟩ := bs
      cases b with
      | false => simp at h
      | true =>
        simp only [if_pos rfl] at h
        cases List.mem_cons.mp hx with
        | inl hxc => exact ⟨s, hxc ▸ hcm⟩
        | inr hxr => exact ih (acc.addAssign s) t h x hxr

theorem conditionsMet_true_agg (bhp rr sr : ℕ → ℚ) :
    ∀ n : WGNode, ∀ s,
      conditionsMet bhp rr sr n = .ok (true, s) →
        s = aggregateRates rr sr n := by
  intro n
  induction n using wgnodeInd with
  | hw s w =>
    intro t h
    simp only [conditionsMet, wellConditionsMet] at h
    cases hc : checkCtrls s w bhp rr sr w.ctrls.enum with
    | error e => rw [hc] at h; exact absurd h (by simp)
    | ok v =>
      rw [hc] at h
      cases h
      rfl
  | hg s cs ih =>
    intro t h
    simp only [conditionsMet] at h
    cases hcc : childrenConditionsMet bhp rr sr cs WellPhasesSummed.zero with
    | error e => rw [hcc] at h; exact absurd h (by simp)
    | ok o =>
      rw [hcc] at h
      cases o with
      | none => simp at h
      | some childSum =>
        dsimp only at h
        by_cases hinj : injectionModesList.any
            (fun m => injModeViolated s childSum m) = true
        · rw [if_pos hinj] at h; simp at h
        · rw [if_neg hinj] at h
          by_cases hprod : productionModesList.any
              (fun m => prodModeViolated s childSum m) = true
          · rw [if_pos hprod] at h; simp at h
          · rw [if_neg hprod] at h
            have ht : childSum = t := by simpa using h
            rw [← ht]
            exact childrenConditionsMet_agg bhp rr sr cs
              WellPhasesSummed.zero childSum
              (fun c hc sc hsc => ih c hc sc hsc) hcc

theorem rangeSum_zero (n : ℕ) : rangeSum n (fun _ => 0) = 0 := by
  simp [rangeSum]

theorem injModeViolated_false_le (spec : NodeSpec) (s : WellPhasesSummed)
    (m : ICM) (h : injModeViolated spec s m = false)
    (hm : m ≠ spec.injSpec.control_mode) (t : ℚ)
    (ht : getTargetInj spec.injSpec m = .ok t) (ht0 : 0 ≤ t) (r : ℚ)
    (hr : rateByModeInj spec.phase_usage s.res_inj_rates s.surf_inj_rates m
        = .ok r) :
    r ≤ t := by
  unfold injModeViolated at h
  rw [if_neg (fun hh => hm hh.symm)] at h
  rw [ht, hr] at h
  dsimp only at h
  simp only [Bool.and_eq_false_iff, decide_eq_false_iff_not] at h
  cases h with
  | inl h0 => exact absurd (by exact_mod_cast ht0) h0
  | inr h1 => linarith [not_lt.mp h1]

theorem prodModeViolated_false_le (spec : NodeSpec) (s : WellPhasesSummed)
    (m : PCM) (h : prodModeViolated spec s m = false)
    (hm : m ≠ spec.prodSpec.control_mode) (t : ℚ)
    (ht : getTargetProd spec.prodSpec m = .ok t) (ht0 : 0 ≤ t) (r : ℚ)
    (hr : rateByModeProd spec.phase_usage s.res_prod_rates s.surf_prod_rates
        m = .ok r) :
    |r| ≤ t := by
  unfold prodModeViolated at h
  rw [if_neg (fun hh => hm hh.symm)] at h
  rw [ht, hr] at h
  dsimp only at h
  simp only [Bool.and_eq_false_iff, decide_eq_false_iff_not] at h
  cases h with
  | inl h0 => exact absurd (by exact_mod_cast ht0) h0
  | inr h1 => exact not_lt.mp h1

/-- The aggregated child rates of a node, as the claim reads them: a leaf
has no children (zero), a group accumulates its children's totals. -/
def childAggregate (rr sr : ℕ → ℚ) : WGNode → WellPhasesSummed
  | .well _ _ => WellPhasesSummed.zero
  | .group _ cs => aggChildren rr sr cs WellPhasesSummed.zero

/-- The claim's invariant at one node: no inactive injection mode in
{RATE, RESV} and no inactive production mode in {ORAT, WRAT, GRAT, LRAT,
RESV} with a set (nonnegative) target is exceeded by the aggregated child
rate for that mode (production exceedance is on the absolute rate, as in
the source). -/
def noInactiveTargetExceeded (rr sr : ℕ → ℚ) (n : WGNode) : Prop :=
  (∀ m ∈ injectionModesList, m ≠ n.spec.injSpec.control_mode →
    ∀ t, getTargetInj n.spec.injSpec m = .ok t → 0 ≤ t →
      ∀ r, rateByModeInj n.spec.phase_usage
          (childAggregate rr sr n).res_inj_rates
          (childAggregate rr sr n).surf_inj_rates m = .ok r →
        r ≤ t) ∧
  (∀ m ∈ productionModesList, m ≠ n.spec.prodSpec.control_mode →
    ∀ t, getTargetProd n.spec.prodSpec m = .ok t → 0 ≤ t →
      ∀ r, rateByModeProd n.spec.phase_usage
          (childAggregate rr sr n).res_prod_rates
          (childAggregate rr sr n).surf_prod_rates m = .ok r →
        |r| ≤ t)

theorem wellNoInactive (rr sr : ℕ → ℚ) (s : NodeSpec) (w : WellData) :
    noInactiveTargetExceeded rr sr (.well s w) := by
  constructor
  · intro m hmem _ t _ ht0 r hr
    fin_cases hmem <;>
      · simp [rateByModeInj, childAggregate, WellPhasesSummed.zero,
          rangeSum_zero] at hr
        rw [← hr]
        exact ht0
  · intro m hmem _ t _ ht0 r hr
    fin_cases hmem <;>
      · simp [rateByModeProd, childAggregate, WellPhasesSummed.zero,
          rangeSum_zero] at hr
        rw [← hr]
        simpa using ht0

/-- C3: if `WellsGroup::conditionsMet` returns true at the root, then at
every node of the tree no inactive injection mode in {RATE, RESV} and no
inactive production mode in {ORAT, WRAT, GRAT, LRAT, RESV} has a set
(nonnegative) target exceeded by the aggregated child rate for that mode
(for production, the absolute aggregated rate, as the source tests). -/
theorem conditionsMet_no_inactive_exceeded (bhp rr sr : ℕ → ℚ)
    (root : WGNode) (d : WellPhasesSummed)
    (h : conditionsMet bhp rr sr root = .ok (true, d)) :
    ∀ n ∈ subtreeNodes root, noInactiveTargetExceeded rr sr n := by
  have main : ∀ n : WGNode, ∀ d', conditionsMet bhp rr sr n = .ok (true, d')
      → ∀ m ∈ subtreeNodes n, noInactiveTargetExceeded rr sr m := by
    intro n
    induction n using wgnodeInd with
    | hw s w =>
      intro d' _ m hm
      have hms : m = .well s w := by simpa [subtreeNodes] using hm
      rw [hms]
      exact wellNoInactive rr sr s w
    | hg s cs ih =>
      intro d' h m hm
      have hagg := conditionsMet_true_agg bhp rr sr (.group s cs) d' h
      simp only [conditionsMet] at h
      cases hcc : childrenConditionsMet bhp rr sr cs
          WellPhasesSummed.zero with
      | error e => rw [hcc] at h; exact absurd h (by simp)
      | ok o =>
        rw [hcc] at h
        cases o with
        | none => simp at h
        | some childSum =>
          dsimp only at h
          by_cases hinj : injectionModesList.any
              (fun m => injModeViolated s childSum m) = true
          · rw [if_pos hinj] at h; simp at h
          · rw [if_neg hinj] at h
            by_cases hprod : productionModesList.any
                (fun m => prodModeViolated s childSum m) = true
            · rw [if_pos hprod] at h; simp at h
            · rw [if_neg hprod] at h
              have hsum : childSum = d' := by simpa using h
              have hchildagg :
                  childAggregate rr sr (.group s cs) = childSum := by
                rw [hsum, hagg]
                rfl
              have hinj' : ∀ mi ∈ injectionModesList,
                  injModeViolated s childSum mi = false := by
                intro mi hmi
                rcases Bool.eq_false_or_eq_true
                    (injModeViolated s childSum mi) with htr | hf
                · exact absurd (List.any_eq_true.mpr ⟨mi, hmi, htr⟩) hinj
                · exact hf
              have hprod' : ∀ mp ∈ productionModesList,
                  prodModeViolated s childSum mp = false := by
                intro mp hmp
                rcases Bool.eq_false_or_eq_true
                    (prodModeViolated s childSum mp) with htr | hf
                · exact absurd (List.any_eq_true.mpr ⟨mp, hmp, htr⟩) hprod
                · exact hf
              cases List.mem_cons.mp hm with
              | inl hmg =>
                rw [hmg]
                constructor
                · intro mi hmi hact t ht ht0 r hr
                  rw [hchildagg] at hr
                  exact injModeViolated_false_le s childSum mi
                    (hinj' mi hmi) hact t ht ht0 r hr
                · intro mp hmp hact t ht ht0 r hr
                  rw [hchildagg] at hr
                  exact prodModeViolated_false_le s childSum mp
                    (hprod' mp hmp) hact t ht ht0 r hr
              | inr hmf =>
                obtain ⟨c, hc, hmc⟩ := (subtreeForest_mem m cs).mp hmf
                obtain ⟨sc, hsc⟩ := childrenConditionsMet_true bhp rr sr cs
                  WellPhasesSummed.zero childSum hcc c hc
                exact ih c hc sc hsc m hmc
  exact main root d h

/-- C10: `WellsGroup::conditionsMet` leaves the output accumulator
`summed_phases` unchanged (writes a zero delta) whenever it returns false
— child failure, injection violation or production violation — and adds
the aggregated child totals to it exactly on the path that returns
true. -/
theorem conditionsMet_summed_unchanged (bhp rr sr : ℕ → ℚ)
    (spec : NodeSpec) (cs : List WGNode) :
    (∀ d, conditionsMet bhp rr sr (.group spec cs) = .ok (false, d) →
      d = WellPhasesSummed.zero) ∧
    (∀ d, conditionsMet bhp rr sr (.group spec cs) = .ok (true, d) →
      d = aggChildren rr sr cs WellPhasesSummed.zero) := by
  constructor
  · intro d h
    simp only [conditionsMet] at h
    cases hcc : childrenConditionsMet bhp rr sr cs
        WellPhasesSummed.zero with
    | error e => rw [hcc] at h; exact absurd h (by simp)
    | ok o =>
      rw [hcc] at h
      cases o with
      | none =>
        dsimp only at h
        exact (by simpa using h : WellPhasesSummed.zero = d).symm
      | some childSum =>
        dsimp only at h
        by_cases hinj : injectionModesList.any
            (fun m => injModeViolated spec childSum m) = true
        · rw [if_pos hinj] at h
          exact (by simpa using h : WellPhasesSummed.zero = d).symm
        · rw [if_neg hinj] at h
          by_cases hprod : productionModesList.any
              (fun m => prodModeViolated spec childSum m) = true
          · rw [if_pos hprod] at h
            exact (by simpa using h : WellPhasesSummed.zero = d).symm
          · rw [if_neg hprod] at h
            simp at h
  · intro d h
    have := conditionsMet_true_agg bhp rr sr (.group spec cs) d h
    simpa [aggregateRates] using this

/-- Three-phase usage (Aqua at 0, Liquid at 1, Vapour at 2) for the
concrete wells data. -/
def pu3 : PhaseUsage :=
  { num_phases := 3
    phase_used := fun _ => true
    phase_pos := fun p =>
      match p with
      | .Aqua => 0
      | .Liquid => 1
      | .Vapour => 2 }

/-- Production specification with all targets unset (`-1`). -/
def prodSpecUnset : ProductionSpecification :=
  { control_mode := .NONE, procedure := .NONE_P, oil_max_rate := -1,
    water_max_rate := -1, gas_max_rate := -1, liquid_max_rate := -1,
    reservoir_flow_max_rate := -1, guide_rate := 1 }

/-- Injection specification with all targets unset (`-1`). -/
def injSpecUnset : InjectionSpecification :=
  { control_mode := .NONE, surface_flow_max_rate := -1,
    reservoir_flow_max_rate := -1, guide_rate := 1 }

/-- A node spec with unset targets. -/
def specUnset : NodeSpec :=
  { efficiency_factor := 1, prodSpec := prodSpecUnset,
    injSpec := injSpecUnset, phase_usage := pu3,
    individual_control := true }

/-- A producer leaf with no controls, at well index 0. -/
def wellW : WellData :=
  { self_index := 0, wtype := .PRODUCER, ctrls := [], current := 0,
    group_control_index := -1 }

/-- A group whose only production target is `oil_max_rate = 5` with the
`NONE_P` procedure. -/
def specViol : NodeSpec :=
  { efficiency_factor := 1
    prodSpec := { prodSpecUnset with oil_max_rate := 5 }
    injSpec := injSpecUnset
    phase_usage := pu3
    individual_control := true }

/-- Witness tree for C3: one unconstrained group over one producer. -/
def treeTrue : WGNode := .group specUnset [.well specUnset wellW]

theorem conditionsMet_no_inactive_exceeded_witness :
    conditionsMet (fun _ => 0) (fun _ => 0) (fun _ => 10) treeTrue =
      .ok (true, aggregateRates (fun _ => 0) (fun _ => 10) treeTrue) ∧
    noInactiveTargetExceeded (fun _ => 0) (fun _ => 10) treeTrue := by
  have hrun : conditionsMet (fun _ => 0) (fun _ => 0) (fun _ => 10)
      treeTrue =
      .ok (true, aggregateRates (fun _ => 0) (fun _ => 10) treeTrue) := by
    simp only [conditionsMet, childrenConditionsMet, wellConditionsMet,
      checkCtrls, treeTrue, wellW, specUnset, prodSpecUnset, injSpecUnset,
      injModeViolated, prodModeViolated, injectionModesList,
      productionModesList, getTargetInj, getTargetProd, rateByModeInj,
      rateByModeProd, aggregateRates, aggChildren, List.enum]
    norm_num
  exact ⟨hrun,
    conditionsMet_no_inactive_exceeded _ _ _ treeTrue _ hrun treeTrue
      (by simp [treeTrue, subtreeNodes])⟩

theorem conditionsMet_summed_unchanged_witness :
    conditionsMet (fun _ => 0) (fun _ => 0) (fun _ => 10)
        (.group specViol [.well specUnset wellW]) =
      .ok (false, WellPhasesSummed.zero) ∧
    WellPhasesSummed.zero = WellPhasesSummed.zero := by
  have hrun : conditionsMet (fun _ => 0) (fun _ => 0) (fun _ => 10)
      (.group specViol [.well specUnset wellW]) =
      .ok (false, WellPhasesSummed.zero) := by
    simp [conditionsMet, childrenConditionsMet, wellConditionsMet,
      checkCtrls, wellW, specUnset, specViol, prodSpecUnset, injSpecUnset,
      injModeViolated, prodModeViolated, injectionModesList,
      productionModesList, getTargetInj, getTargetProd, rateByModeInj,
      rateByModeProd, leafSummed, WellPhasesSummed.addAssign,
      WellPhasesSummed.zero, addCap3, pu3, rangeSum, List.enum]
    norm_num
  exact ⟨hrun,
    (conditionsMet_summed_unchanged _ _ _ specViol
      [.well specUnset wellW]).1 WellPhasesSummed.zero hrun⟩

/-- The `invalid_alq` sentinel (`-1e100`). -/
def invalid_alq : ℚ := -(10 ^ 100)

/-- The `invalid_vfp` sentinel (`-2147483647`). -/
def invalid_vfp : ℚ := -2147483647

/-- The control-type/distribution switch of
`WellNode::applyProdGroupControl`: unit distribution on the mode's phases
(`SURFACE_RATE`), all ones for `RESV` (`RESERVOIR_RATE`); inactive phases
and unhandled modes throw. -/
def prodControlTypeDistr (pu : PhaseUsage) :
    PCM → Except Unit (WellControlType × List ℚ)
  | .ORAT =>
    if pu.phase_used .Liquid then
      .ok (.SURFACE_RATE, ([0, 0, 0] : List ℚ).set (pu.phase_pos .Liquid) 1)
    else .error ()
  | .WRAT =>
    if pu.phase_used .Aqua then
      .ok (.SURFACE_RATE, ([0, 0, 0] : List ℚ).set (pu.phase_pos .Aqua) 1)
    else .error ()
  | .GRAT =>
    if pu.phase_used .Vapour then
      .ok (.SURFACE_RATE, ([0, 0, 0] : List ℚ).set (pu.phase_pos .Vapour) 1)
    else .error ()
  | .LRAT =>
    if pu.phase_used .Liquid then
      if pu.phase_used .Aqua then
        .ok (.SURFACE_RATE,
          (([0, 0, 0] : List ℚ).set (pu.phase_pos .Liquid) 1).set
            (pu.phase_pos .Aqua) 1)
      else .error ()
    else .error ()
  | .RESV => .ok (.RESERVOIR_RATE, [1, 1, 1])
  | _ => .error ()

/-- `WellNode::applyProdGroupControl`: non-producers and (under
`only_group`) individually controlled wells are untouched; otherwise the
negated, efficiency-scaled target is installed in the group-control slot
(appended when absent, else overwritten in place: type, target, alq and
distribution — the stored vfp is not touched), and that slot becomes the
current control. -/
def wellApplyProdGroupControl (mode : PCM) (target : ℚ) (only_group : Bool)
    (spec : NodeSpec) (w : WellData) : Except Unit WGNode :=
  if w.wtype ≠ .PRODUCER then .ok (.well spec w)
  else if only_group ∧ spec.individual_control then .ok (.well spec w)
  else
    match prodControlTypeDistr spec.phase_usage mode with
    | .error e => .error e
    | .ok (wct, distr) =>
      let ntarget := -target / spec.efficiency_factor
      if w.group_control_index < 0 then
        let ctrls' := w.ctrls ++
          [⟨wct, ntarget, invalid_alq, invalid_vfp, distr⟩]
        let gci : Int := (ctrls'.length : Int) - 1
        .ok (.well spec
          { w with
            ctrls := ctrls'
            group_control_index := gci
            current := gci.toNat })
      else
        let i := w.group_control_index.toNat
        let old := w.ctrls.getD i ⟨.BHP, 0, 0, 0, []⟩
        let ctrls' := w.ctrls.set i
          { old with
            ctype := wct
            target := ntarget
            alq := -(10 ^ 100)
            distr := distr }
        .ok (.well spec { w with ctrls := ctrls', current := i })

mutual

/-- `applyProdGroupControl` (`WellsGroup` and `WellNode` overloads): a
group does nothing under `NONE`, or when `only_group` is set and it is not
under `FLD`; otherwise it splits the target among all children in
proportion to `productionGuideRate(only_group)` against the denominator
`productionGuideRate(false)` of the whole group, recursing with
`only_group = false`, and finally marks itself `FLD`. -/
def applyProdGroupControl (mode : PCM) (target : ℚ) (only_group : Bool) :
    WGNode → Except Unit WGNode
  | .well spec w => wellApplyProdGroupControl mode target only_group spec w
  | .group spec cs =>
    if spec.prodSpec.control_mode = PCM.NONE then .ok (.group spec cs)
    else if !only_group || spec.prodSpec.control_mode = PCM.FLD then
      if productionGuideRate false (.group spec cs) = 0 then
        .ok (.group spec cs)
      else
        match applyProdToChildren mode target only_group
            spec.efficiency_factor
            (productionGuideRate false (.group spec cs)) cs with
        | .error e => .error e
        | .ok cs' => .ok (.group
            { spec with prodSpec :=
              { spec.prodSpec with control_mode := PCM.FLD } } cs')
    else .ok (.group spec cs)

/-- The child loop of `WellsGroup::applyProdGroupControl` with
`child_target = target / eff * productionGuideRate(only_group) /
my_guide_rate`. -/
def applyProdToChildren (mode : PCM) (target : ℚ) (only_group : Bool)
    (eff my_guide_rate : ℚ) : List WGNode → Except Unit (List WGNode)
  | [] => .ok []
  | c :: rest =>
    match applyProdGroupControl mode
        (target / eff * productionGuideRate only_group c / my_guide_rate)
        false c with
    | .error e => .error e
    | .ok c' =>
      match applyProdToChildren mode target only_group eff my_guide_rate
          rest with
      | .error e => .error e
      | .ok rest' => .ok (c' :: rest')

end

mutual

/-- The group behaviour of `applyProdGroupControl` as claim C1's source
sentence (spec §4.6) words it: do nothing only when `only_group` is set
and the mode is not `FLD`; use `G = Σ_children guideRate(only_group)` both
as zero test and as denominator; recurse with `only_group = false`; then
mark `FLD`. Leaves behave as in the source. -/
def claimApplyProdGroupControl (mode : PCM) (target : ℚ)
    (only_group : Bool) : WGNode → Except Unit WGNode
  | .well spec w => wellApplyProdGroupControl mode target only_group spec w
  | .group spec cs =>
    if only_group ∧ spec.prodSpec.control_mode ≠ PCM.FLD then
      .ok (.group spec cs)
    else
      if (cs.map (productionGuideRate only_group)).sum = 0 then
        .ok (.group spec cs)
      else
        match claimApplyChildren mode target only_group
            spec.efficiency_factor
            ((cs.map (productionGuideRate only_group)).sum) cs with
        | .error e => .error e
        | .ok cs' => .ok (.group
            { spec with prodSpec :=
              { spec.prodSpec with control_mode := PCM.FLD } } cs')

def claimApplyChildren (mode : PCM) (target : ℚ) (only_group : Bool)
    (eff g : ℚ) : List WGNode → Except Unit (List WGNode)
  | [] => .ok []
  | c :: rest =>
    match claimApplyProdGroupControl mode
        (target / eff * productionGuideRate only_group c / g) false c with
    | .error e => .error e
    | .ok c' =>
      match claimApplyChildren mode target only_group eff g rest with
      | .error e => .error e
      | .ok rest' => .ok (c' :: rest')

end

/-- Target of the current control of the `i`-th child (a well) of a group
result. -/
def childWellCurrentTarget (r : Except Unit WGNode) (i : ℕ) : Option ℚ :=
  match r with
  | .ok (.group _ cs) =>
    match cs[i]? with
    | some (.well _ w) => (w.ctrls[w.current]?).map (fun c => c.target)
    | _ => none
  | _ => none

/-- A node spec under `FLD` production control. -/
def specFLD : NodeSpec :=
  { specUnset with prodSpec :=
    { prodSpecUnset with control_mode := PCM.FLD } }

/-- A group-controlled (not individually controlled) node spec. -/
def specGrpCtl : NodeSpec := { specUnset with individual_control := false }

/-- Producer leaf at well index 1 with no controls. -/
def wellB : WellData :=
  { self_index := 1, wtype := .PRODUCER, ctrls := [], current := 0,
    group_control_index := -1 }

/-- C2 counterexample tree: an `FLD` group over an individually controlled
producer (guide rate 1) and a group-controlled producer (guide rate 1). -/
def cexTree2 : WGNode :=
  .group specFLD [.well specUnset wellW, .well specGrpCtl wellB]

/-- C2 counterexample: with `only_group = true` and target 100 on
`cexTree2`, the source installs target `-50` on the group-controlled child
(denominator `productionGuideRate(false) = 2` counts the individually
controlled sibling), while the claim's formula (denominator
`Σ guideRate(only_group) = 1`) would install `-100`. -/
theorem applyProdGroupControl_claim_cex :
    childWellCurrentTarget
        (applyProdGroupControl PCM.ORAT 100 true cexTree2) 1 =
      some (-50) ∧
    childWellCurrentTarget
        (claimApplyProdGroupControl PCM.ORAT 100 true cexTree2) 1 =
      some (-100) ∧
    ((-50 : ℚ)) ≠ -100 := by
  refine ⟨?_, ?_, by norm_num⟩
  · simp only [applyProdGroupControl, applyProdToChildren,
      wellApplyProdGroupControl, prodControlTypeDistr,
      productionGuideRate, prodGuideRateSum, WGNode.individualControl,
      WGNode.spec, childWellCurrentTarget, cexTree2, specFLD, specGrpCtl,
      specUnset, prodSpecUnset, injSpecUnset, wellW, wellB, pu3]
    norm_num [childWellCurrentTarget, List.getElem?_cons_zero,
      List.getElem?_cons_succ]
    rfl
  · simp only [claimApplyProdGroupControl, claimApplyChildren,
      wellApplyProdGroupControl, prodControlTypeDistr,
      productionGuideRate, prodGuideRateSum, WGNode.individualControl,
      WGNode.spec, childWellCurrentTarget, cexTree2, specFLD, specGrpCtl,
      specUnset, prodSpecUnset, injSpecUnset, wellW, wellB, pu3, List.map,
      List.sum_cons, List.sum_nil]
    norm_num [childWellCurrentTarget, List.getElem?_cons_zero,
      List.getElem?_cons_succ]

/-- Sequential `Except`-valued map over the children list. -/
def mapExcept (f : WGNode → Except Unit WGNode) :
    List WGNode → Except Unit (List WGNode)
  | [] => .ok []
  | c :: rest =>
    match f c with
    | .error e => .error e
    | .ok c' =>
      match mapExcept f rest with
      | .error e => .error e
      | .ok rest' => .ok (c' :: rest')

theorem prodGuideRateSum_false (cs : List WGNode) :
    prodGuideRateSum false cs =
      (cs.map (productionGuideRate false)).sum := by
  induction cs with
  | nil => simp [prodGuideRateSum]
  | cons c rest ih =>
    simp [prodGuideRateSum, ih]

theorem pgr_false_group (s : NodeSpec) (cs : List WGNode) :
    productionGuideRate false (.group s cs) =
      (cs.map (productionGuideRate false)).sum := by
  simp only [productionGuideRate]
  exact prodGuideRateSum_false cs

theorem applyProdToChildren_eq (mode : PCM) (target : ℚ) (og : Bool)
    (eff g : ℚ) (cs : List WGNode) :
    applyProdToChildren mode target og eff g cs =
      mapExcept (fun c => applyProdGroupControl mode
        (target / eff * productionGuideRate og c / g) false c) cs := by
  induction cs with
  | nil => rfl
  | cons c rest ih =>
    simp only [applyProdToChildren, mapExcept, ih]

/-- C2 (amended): on a group, `applyProdGroupControl(mode, target,
only_group)` does nothing when the group's production control mode is
`NONE`, or when `only_group` is set and the mode is not `FLD`. Otherwise
the denominator is `G = Σ_children guideRate(false)` — guide rates counted
regardless of group control, unlike the claim's `guideRate(only_group)` —
and when `G = 0` nothing happens; else each child `c` is recursed into
with `target' = (target / efficiency_self) * guideRate_c(only_group) / G`
and `only_group = false`, and the group's production control mode is set
to `FLD` afterwards. -/
theorem applyProdGroupControl_group_spec (mode : PCM) (target : ℚ)
    (og : Bool) (spec : NodeSpec) (cs : List WGNode) :
    applyProdGroupControl mode target og (.group spec cs) =
      if spec.prodSpec.control_mode = PCM.NONE ∨
          (og = true ∧ spec.prodSpec.control_mode ≠ PCM.FLD) then
        .ok (.group spec cs)
      else if (cs.map (productionGuideRate false)).sum = 0 then
        .ok (.group spec cs)
      else
        match mapExcept (fun c => applyProdGroupControl mode
            (target / spec.efficiency_factor * productionGuideRate og c /
              (cs.map (productionGuideRate false)).sum) false c) cs with
        | .error e => .error e
        | .ok cs' => .ok (.group
            { spec with prodSpec :=
              { spec.prodSpec with control_mode := PCM.FLD } } cs') := by
  have hG : productionGuideRate false (.group spec cs)
      = (cs.map (productionGuideRate false)).sum := pgr_false_group spec cs
  simp only [applyProdGroupControl, hG, applyProdToChildren_eq]
  by_cases h1 : spec.prodSpec.control_mode = PCM.NONE
  · rw [if_pos h1, if_pos (Or.inl h1)]
  · rw [if_neg h1]
    by_cases h2 : og = true ∧ spec.prodSpec.control_mode ≠ PCM.FLD
    · rw [if_neg (by simp [h2.1, h2.2]), if_pos (Or.inr h2)]
    · have hcond : (!og || decide
          (spec.prodSpec.control_mode = PCM.FLD)) = true := by
        rcases not_and_or.mp h2 with hog | hfld
        · have hogf : og = false := by
            cases og
            · rfl
            · exact absurd rfl hog
          simp [hogf]
        · simp [not_not.mp hfld]
      have hneg : ¬ (spec.prodSpec.control_mode = PCM.NONE ∨
          og = true ∧ spec.prodSpec.control_mode ≠ PCM.FLD) := by
        intro hor
        rcases hor with hn | ha
        · exact h1 hn
        · exact h2 ha
      rw [if_pos hcond]
      rw [if_neg hneg]

mutual

/-- `getWorstOffending` (`WellsGroup` and `WellNode` overloads): a leaf
returns itself (identified by `self_index`) with its rate at the given
mode read from the per-well slices of the flat rate arrays; a group takes
a child's result when it is the first child or its rate compares strictly
greater than the running maximum (`max.second < child_max.second`). -/
def getWorstOffending (rr sr : ℕ → ℚ) (mode : PCM) :
    WGNode → Except Unit (ℕ × ℚ)
  | .well spec w =>
    match rateByModeProd spec.phase_usage
        (fun p => rr (w.self_index * spec.phase_usage.num_phases + p))
        (fun p => sr (w.self_index * spec.phase_usage.num_phases + p))
        mode with
    | .error e => .error e
    | .ok r => .ok (w.self_index, r)
  | .group _ cs => worstLoop rr sr mode cs 0 (0, 0)

/-- The child loop of `WellsGroup::getWorstOffending`, threading the loop
index and the running `max` pair (default-initialised `(0, 0.0)`). -/
def worstLoop (rr sr : ℕ → ℚ) (mode : PCM) :
    List WGNode → ℕ → (ℕ × ℚ) → Except Unit (ℕ × ℚ)
  | [], _, m => .ok m
  | c :: rest, i, m =>
    match getWorstOffending rr sr mode c with
    | .error e => .error e
    | .ok cm =>
      worstLoop rr sr mode rest (i + 1) (if i = 0 ∨ m.2 < cm.2 then cm else m)

end

/-- Total version of the production `rateByMode` (coincides with
`rateByModeProd` on the five handled modes). -/
def rateByModeProdQ (pu : PhaseUsage) (res_rates surf_rates : ℕ → ℚ) :
    PCM → ℚ
  | .ORAT => surf_rates (pu.phase_pos .Liquid)
  | .WRAT => surf_rates (pu.phase_pos .Aqua)
  | .GRAT => surf_rates (pu.phase_pos .Vapour)
  | .LRAT => surf_rates (pu.phase_pos .Liquid) +
      surf_rates (pu.phase_pos .Aqua)
  | .RESV => rangeSum pu.num_phases res_rates
  | _ => 0

mutual

/-- The `(self_index, rate)` pairs of all leaf wells of a subtree, in
traversal order. -/
def leafRatePairs (rr sr : ℕ → ℚ) (mode : PCM) : WGNode → List (ℕ × ℚ)
  | .well spec w =>
    [(w.self_index, rateByModeProdQ spec.phase_usage
      (fun p => rr (w.self_index * spec.phase_usage.num_phases + p))
      (fun p => sr (w.self_index * spec.phase_usage.num_phases + p))
      mode)]
  | .group _ cs => leafRatePairsList rr sr mode cs

def leafRatePairsList (rr sr : ℕ → ℚ) (mode : PCM) :
    List WGNode → List (ℕ × ℚ)
  | [] => []
  | c :: rest =>
    leafRatePairs rr sr mode c ++ leafRatePairsList rr sr mode rest

end

mutual

/-- Every group of the tree has at least one child. -/
def groupsNonempty : WGNode → Bool
  | .well _ _ => true
  | .group _ cs => !cs.isEmpty && groupsNonemptyList cs

def groupsNonemptyList : List WGNode → Bool
  | [] => true
  | c :: rest => groupsNonempty c && groupsNonemptyList rest

end

theorem rateByModeProd_ok (pu : PhaseUsage) (res surf : ℕ → ℚ) (mode : PCM)
    (hm : mode ∈ productionModesList) :
    rateByModeProd pu res surf mode = .ok (rateByModeProdQ pu res surf mode)
    := by
  fin_cases hm <;> rfl

theorem mem_leafRatePairsList (rr sr : ℕ → ℚ) (mode : PCM) (c : WGNode)
    (rest : List WGNode) (q : ℕ × ℚ) :
    q ∈ leafRatePairsList rr sr mode (c :: rest) ↔
      q ∈ leafRatePairs rr sr mode c ∨
        q ∈ leafRatePairsList rr sr mode rest := by
  simp [leafRatePairsList, List.mem_append]

theorem groupsNonemptyList_mem (cs : List WGNode)
    (h : groupsNonemptyList cs = true) :
    ∀ c ∈ cs, groupsNonempty c = true := by
  induction cs with
  | nil => intro c hc; exact absurd hc (List.not_mem_nil c)
  | cons x rest ih =>
    intro c hc
    simp only [groupsNonemptyList, Bool.and_eq_true] at h
    cases List.mem_cons.mp hc with
    | inl hcx => exact hcx ▸ h.1
    | inr hcr => exact ih h.2 c hcr

theorem worstLoop_spec (rr sr : ℕ → ℚ) (mode : PCM) :
    ∀ cs : List WGNode,
      (∀ c ∈ cs, ∃ pc, getWorstOffending rr sr mode c = .ok pc ∧
        pc ∈ leafRatePairs rr sr mode c ∧
        ∀ q ∈ leafRatePairs rr sr mode c, q.2 ≤ pc.2) →
      ∀ (i : ℕ) (m : ℕ × ℚ), 1 ≤ i →
      ∃ p, worstLoop rr sr mode cs i m = .ok p ∧
        (p = m ∨ p ∈ leafRatePairsList rr sr mode cs) ∧
        m.2 ≤ p.2 ∧
        ∀ q ∈ leafRatePairsList rr sr mode cs, q.2 ≤ p.2 := by
  intro cs
  induction cs with
  | nil =>
    intro _ i m _
    exact ⟨m, rfl, Or.inl rfl, le_refl _, by simp [leafRatePairsList]⟩
  | cons c rest ih =>
    intro hch i m hi
    obtain ⟨pc, hpc, hpcmem, hpcmax⟩ := hch c (List.mem_cons_self _ _)
    have hrest := fun x hx => hch x (List.mem_cons_of_mem c hx)
    have hi0 : ¬ i = 0 := by omega
    by_cases hlt : m.2 < pc.2
    · have hstep : worstLoop rr sr mode (c :: rest) i m =
          worstLoop rr sr mode rest (i + 1) pc := by
        simp only [worstLoop, hpc]
        rw [if_pos (Or.inr hlt)]
      obtain ⟨p, hp, hpor, hple, hpmax⟩ := ih hrest (i + 1) pc (by omega)
      refine ⟨p, hstep.trans hp, ?_, le_trans (le_of_lt hlt) hple, ?_⟩
      · rcases hpor with h | h
        · exact Or.inr ((mem_leafRatePairsList rr sr mode c rest p).mpr
            (Or.inl (h ▸ hpcmem)))
        · exact Or.inr ((mem_leafRatePairsList rr sr mode c rest p).mpr
            (Or.inr h))
      · intro q hq
        rcases (mem_leafRatePairsList rr sr mode c rest q).mp hq with h | h
        · exact le_trans (hpcmax q h) hple
        · exact hpmax q h
    · have hstep : worstLoop rr sr mode (c :: rest) i m =
          worstLoop rr sr mode rest (i + 1) m := by
        simp only [worstLoop, hpc]
        rw [if_neg (by
          intro hor
          rcases hor with h | h
          · exact hi0 h
          · exact hlt h)]
      obtain ⟨p, hp, hpor, hple, hpmax⟩ := ih hrest (i + 1) m (by omega)
      refine ⟨p, hstep.trans hp, ?_, hple, ?_⟩
      · rcases hpor with h | h
        · exact Or.inl h
        · exact Or.inr ((mem_leafRatePairsList rr sr mode c rest p).mpr
            (Or.inr h))
      · intro q hq
        rcases (mem_leafRatePairsList rr sr mode c rest q).mp hq with h | h
        · exact le_trans (hpcmax q h) (le_trans (not_lt.mp hlt) hple)
        · exact hpmax q h

/-- C6 (amended): for a production mode in {ORAT, WRAT, GRAT, LRAT, RESV}
and a tree all of whose groups have at least one child,
`getWorstOffending` returns a leaf well (identified by its well index)
together with its rate at that mode, such that its signed rate — not its
absolute value — is greater than or equal to every leaf well's rate in the
subtree (groups keep a child's result only when it compares strictly
greater, so ties favour the earlier child). -/
theorem getWorstOffending_spec (rr sr : ℕ → ℚ) (mode : PCM)
    (hm : mode ∈ productionModesList) (t : WGNode)
    (hne : groupsNonempty t = true) :
    ∃ p, getWorstOffending rr sr mode t = .ok p ∧
      p ∈ leafRatePairs rr sr mode t ∧
      ∀ q ∈ leafRatePairs rr sr mode t, q.2 ≤ p.2 := by
  have main : ∀ n : WGNode, groupsNonempty n = true →
      ∃ p, getWorstOffending rr sr mode n = .ok p ∧
        p ∈ leafRatePairs rr sr mode n ∧
        ∀ q ∈ leafRatePairs rr sr mode n, q.2 ≤ p.2 := by
    intro n
    induction n using wgnodeInd with
    | hw s w =>
      intro _
      refine ⟨(w.self_index, rateByModeProdQ s.phase_usage
        (fun p => rr (w.self_index * s.phase_usage.num_phases + p))
        (fun p => sr (w.self_index * s.phase_usage.num_phases + p)) mode),
        ?_, ?_, ?_⟩
      · simp only [getWorstOffending, rateByModeProd_ok _ _ _ _ hm]
      · simp [leafRatePairs]
      · intro q hq
        simp only [leafRatePairs, List.mem_singleton] at hq
        rw [hq]
    | hg s cs ihc =>
      intro hne'
      simp only [groupsNonempty, Bool.and_eq_true] at hne'
      have hchild : ∀ c ∈ cs, ∃ pc,
          getWorstOffending rr sr mode c = .ok pc ∧
          pc ∈ leafRatePairs rr sr mode c ∧
          ∀ q ∈ leafRatePairs rr sr mode c, q.2 ≤ pc.2 :=
        fun c hc => ihc c hc (groupsNonemptyList_mem cs hne'.2 c hc)
      cases cs with
      | nil => simp at hne'
      | cons c0 rest =>
        obtain ⟨pc0, hpc0, hpc0mem, hpc0max⟩ :=
          hchild c0 (List.mem_cons_self _ _)
        have hrest := fun x hx => hchild x (List.mem_cons_of_mem c0 hx)
        have hstep : getWorstOffending rr sr mode (.group s (c0 :: rest)) =
            worstLoop rr sr mode rest 1 pc0 := by
          simp only [getWorstOffending, worstLoop, hpc0]
          norm_num
        obtain ⟨p, hp, hpor, hple, hpmax⟩ :=
          worstLoop_spec rr sr mode rest hrest 1 pc0 (le_refl 1)
        refine ⟨p, hstep.trans hp, ?_, ?_⟩
        · show p ∈ leafRatePairsList rr sr mode (c0 :: rest)
          rcases hpor with h | h
          · exact (mem_leafRatePairsList rr sr mode c0 rest p).mpr
              (Or.inl (h ▸ hpc0mem))
          · exact (mem_leafRatePairsList rr sr mode c0 rest p).mpr
              (Or.inr h)
        · intro q hq
          rcases (mem_leafRatePairsList rr sr mode c0 rest q).mp hq
              with h | h
          · exact le_trans (hpc0max q h) hple
          · exact hpmax q h
  exact main t hne

/-- Zero reservoir rates for the worst-offending examples. -/
def rr0 : ℕ → ℚ := fun _ => 0

/-- Surface rates: well 0 produces oil at `-80`, well 1 at `-30`
(producers flow negative; oil sits at phase position 1 of 3). -/
def sr6 : ℕ → ℚ := fun n => if n = 1 then -80 else if n = 4 then -30 else 0

/-- Surface rates for the C6 witness: oil rates `3` (well 0) and `7`
(well 1). -/
def sr7 : ℕ → ℚ := fun n => if n = 1 then 3 else if n = 4 then 7 else 0

/-- Two-producer group for the worst-offending examples. -/
def wtree6 : WGNode :=
  .group specUnset [.well specUnset wellW, .well specUnset wellB]

/-- C6 counterexample: with producer oil rates `-80` and `-30`,
`getWorstOffending(ORAT)` returns the well with rate `-30` (the signed
maximum), although the other leaf's rate `-80` has the strictly larger
absolute value, contradicting the claimed maximum-absolute-value
selection. -/
theorem getWorstOffending_claim_cex :
    getWorstOffending rr0 sr6 PCM.ORAT wtree6 = .ok (1, -30) ∧
      leafRatePairs rr0 sr6 PCM.ORAT wtree6 = [(0, -80), (1, -30)] ∧
      ¬ (|(-30 : ℚ)| ≥ |(-80 : ℚ)|) := by
  refine ⟨?_, ?_, by norm_num⟩
  · simp only [getWorstOffending, worstLoop, rateByModeProd, wtree6,
      specUnset, prodSpecUnset, injSpecUnset, wellW, wellB, pu3, rr0, sr6]
    norm_num
  · simp only [leafRatePairs, leafRatePairsList, rateByModeProdQ, wtree6,
      specUnset, prodSpecUnset, injSpecUnset, wellW, wellB, pu3, rr0, sr6]
    norm_num

theorem getWorstOffending_spec_witness :
    (PCM.ORAT ∈ productionModesList ∧ groupsNonempty wtree6 = true) ∧
      getWorstOffending rr0 sr7 PCM.ORAT wtree6 = .ok (1, 7) ∧
      (1, 7) ∈ leafRatePairs rr0 sr7 PCM.ORAT wtree6 := by
  have hmode : PCM.ORAT ∈ productionModesList := by decide
  have hne : groupsNonempty wtree6 = true := by
    simp [groupsNonempty, groupsNonemptyList, wtree6]
  obtain ⟨p, hp, hmem, hmax⟩ :=
    getWorstOffending_spec rr0 sr7 PCM.ORAT hmode wtree6 hne
  have hrun : getWorstOffending rr0 sr7 PCM.ORAT wtree6 = .ok (1, 7) := by
    simp only [getWorstOffending, worstLoop, rateByModeProd, wtree6,
      specUnset, prodSpecUnset, injSpecUnset, wellW, wellB, pu3, rr0, sr7]
    norm_num
  have hpeq : p = (1, 7) := by
    rw [hp] at hrun
    exact (Except.ok.injEq _ _).mp hrun
  exact ⟨⟨hmode, hne⟩, hrun, hpeq ▸ hmem⟩

/-- `Segment::SegmentType`: the ICD variants plus the default kind. -/
inductive SegmentType
  | SICD
  | AICD
  | VALVE
  | Regular
  deriving DecidableEq, Repr

/-- `Opm::ICDStatus`. -/
inductive ICDStatus
  | SHUT
  | OPEN
  deriving DecidableEq, Repr

/-- The fields of one multisegment-well segment read by
`assembleICDPressureEq`. -/
structure MSWSegment where
  segmentType : SegmentType
  valveStatus : ICDStatus
  outletSegment : ℕ
  deriving DecidableEq, Repr

/-- The single assembly action `assembleICDPressureEq` performs on the
well linear system for one segment. `trivialEq` is
`MultisegmentWellAssemble::assembleTrivialEq` — modelled from the spec:
it encodes the equation `WQTotal(seg) = 0` in the segment's row, carrying
the current `WQTotal` value as the residual — and carries no hydrostatic,
friction or outlet-pressure terms. `icdPressureEq` is
`assemblePressureEq` with the device pressure drop already subtracted and
the outlet coupling. -/
inductive PressureEqAction
  | trivialEq (seg : ℕ) (value : ℚ)
  | icdPressureEq (seg seg_upwind outlet : ℕ)
      (pressure_equation outlet_pressure : AdEval)

/-- The per-segment well-state entries written by the ICD pressure
assembly. -/
structure SegWellState where
  pressure_drop_friction : List ℚ

/-- `MultisegmentWellEval::assembleICDPressureEq`, parametric in the
device pressure-drop kernels (`pressureDropSpiralICD`,
`pressureDropAutoICD`, `pressureDropValve` of the segment set, which are
outside the given sources), the upwinding choice and the
segment-number-to-index map. A `VALVE` segment whose valve status is
`SHUT` gets the trivial equation on its `WQTotal` value and a zero
friction pressure drop recorded; every other ICD type subtracts its
device drop from the segment pressure, records it as the friction drop
and couples to the outlet segment; a non-ICD type throws. -/
def assembleICDPressureEq (segs : List MSWSegment) (wq p : ℕ → AdEval)
    (dropSICD dropAICD dropValve : ℕ → AdEval) (upwind segNumToIdx : ℕ → ℕ)
    (seg : ℕ) (ws : SegWellState) :
    Except Unit (PressureEqAction × SegWellState) :=
  let segment := segs.getD seg ⟨.Regular, .OPEN, 0⟩
  if segment.segmentType = .VALVE ∧ segment.valveStatus = .SHUT then
    .ok (.trivialEq seg (wq seg).val,
      { ws with pressure_drop_friction :=
          ws.pressure_drop_friction.set seg 0 })
  else
    match (match segment.segmentType with
      | .SICD => Except.ok (dropSICD seg)
      | .AICD => Except.ok (dropAICD seg)
      | .VALVE => Except.ok (dropValve seg)
      | _ => Except.error ()) with
    | .error e => .error e
    | .ok icd_pressure_drop =>
      let pressure_equation := (p seg).sub icd_pressure_drop
      let ws' := { ws with pressure_drop_friction :=
        ws.pressure_drop_friction.set seg icd_pressure_drop.val }
      let outlet_index := segNumToIdx segment.outletSegment
      .ok (.icdPressureEq seg (upwind seg) outlet_index pressure_equation
        (p outlet_index), ws')

theorem getD_set_self_q (l : List ℚ) (i : ℕ) (a d : ℚ)
    (h : i < l.length) : (l.set i a).getD i d = a := by
  simp [List.getD_eq_getElem?_getD, List.getElem?_set_self, h]

/-- C7: on a segment whose type is `Valve` with valve status `SHUT`,
`assembleICDPressureEq` assembles exactly the trivial equation on the
segment's `WQTotal` value for that row and stores a zero friction
pressure drop in the well state; no hydrostatic/friction/outlet-pressure
assembly happens for that segment (the action is `trivialEq`, which
carries no such terms). -/
theorem assembleICDPressureEq_shut_valve (segs : List MSWSegment)
    (wq p dropSICD dropAICD dropValve : ℕ → AdEval)
    (upwind segNumToIdx : ℕ → ℕ) (seg : ℕ) (ws : SegWellState)
    (hseg : (segs.getD seg ⟨.Regular, .OPEN, 0⟩).segmentType = .VALVE)
    (hshut : (segs.getD seg ⟨.Regular, .OPEN, 0⟩).valveStatus = .SHUT)
    (hlen : seg < ws.pressure_drop_friction.length) :
    assembleICDPressureEq segs wq p dropSICD dropAICD dropValve upwind
        segNumToIdx seg ws =
      .ok (.trivialEq seg (wq seg).val,
        { ws with pressure_drop_friction :=
            ws.pressure_drop_friction.set seg 0 }) ∧
    (ws.pressure_drop_friction.set seg 0).getD seg 1 = 0 := by
  constructor
  · unfold assembleICDPressureEq
    rw [if_pos ⟨hseg, hshut⟩]
  · exact getD_set_self_q _ _ _ _ hlen

/-- Segment list for the C7 witness: segment 1 is a shut valve. -/
def segs0 : List MSWSegment :=
  [⟨.Regular, .OPEN, 0⟩, ⟨.VALVE, .SHUT, 0⟩]

/-- Well-state for the C7 witness. -/
def ws0 : SegWellState := ⟨[5, 7]⟩

theorem assembleICDPressureEq_shut_valve_witness :
    ((segs0.getD 1 ⟨.Regular, .OPEN, 0⟩).segmentType = .VALVE ∧
      (segs0.getD 1 ⟨.Regular, .OPEN, 0⟩).valveStatus = .SHUT ∧
      1 < ws0.pressure_drop_friction.length) ∧
    (ws0.pressure_drop_friction.set 1 0).getD 1 1 = 0 :=
  ⟨⟨by decide, by decide, by decide⟩,
    (assembleICDPressureEq_shut_valve segs0 (fun _ => AdEval.ofQ 3)
      (fun _ => AdEval.ofQ 0) (fun _ => AdEval.ofQ 0)
      (fun _ => AdEval.ofQ 0) (fun _ => AdEval.ofQ 0) id id 1 ws0
      (by decide) (by decide) (by decide)).2⟩
